import Mathlib

/-!
Verification development for the Ant Colony Optimization TSP solver
(src/TravelingSalesmanSolver.py), via a shallow embedding in Lean.

Modelling conventions.
* Python floats are modelled as exact rationals (ℚ).  The IEEE value
  `float('inf')`, used by the solver as the "no edge" sentinel and as the
  initial best cost, is modelled by `none` in `Option ℚ`; finite values by
  `some q`.
* `random.random()` draws are supplied by an oracle stream
  `randreal : ℕ → ℚ` (whose values model the interval [0,1));
  `random.randrange(n)` is modelled as `randnat k % n`, an arbitrary
  uniform draw below `n`.  Stream indices are threaded through the state
  in exactly the Python call order (a `random.random()` index is consumed
  only when the source actually calls `random.random()`).
* CPython iterates a set of small ints in ascending order, so
  `list(unvisited)` is modelled as an ascending list; `set.remove` is
  `List.erase`, which preserves that order.
* Python `x ** e` on floats is modelled by `fpow` below, which is exact
  for nonnegative bases and nonnegative integer exponents (the values the
  claims are settled at); non-integer float exponents have no exact
  rational counterpart.
-/

namespace AcoTsp

attribute [local semireducible] Rat.mul Rat.inv Rat.add Rat.sub

/-- Addition on `Option ℚ` where `none` models `float('inf')`:
`inf + x = inf`, mirroring the float sum in the cost computation. -/
def oadd : Option ℚ → Option ℚ → Option ℚ
  | none, _ => none
  | some _, none => none
  | some a, some b => some (a + b)

/-- Strict `<` on `Option ℚ` with `none` as `+inf` (`inf < inf` is false,
`x < inf` is true for finite `x`), mirroring float comparison. -/
def olt : Option ℚ → Option ℚ → Bool
  | none, _ => false
  | some _, none => true
  | some a, some b => a < b

/-- Python `min` on two values with `none` as `+inf`: keeps the current
value unless the new one is strictly smaller. -/
def omin (a b : Option ℚ) : Option ℚ := if olt b a then b else a

/-- Python `min` over a nonempty list (the source only calls `min(costs)`
under the guard `if paths:`; the `[]` case is junk). -/
def minCostList : List (Option ℚ) → Option ℚ
  | [] => none
  | c :: cs => cs.foldl omin c

/-- Python `1.0 / cost` where `cost` may be `inf`: `1.0 / inf = 0.0`.
(For `cost = some 0` Python would raise ZeroDivisionError; in ℚ the value
is the junk 0.  All claims are settled at positive weights.) -/
def oinv : Option ℚ → ℚ
  | none => 0
  | some c => 1 / c

/-- Model of Python `x ** e` for a nonnegative float base and nonnegative
float exponent: `0.0 ** 0.0 = 1.0`, `0.0 ** e = 0.0` for `e > 0`, and
`x ^ e` otherwise.  Exact whenever `e` is an integer; the solver's
exponents are `alpha`/`beta`, validated nonnegative. -/
def fpow (x e : ℚ) : ℚ :=
  if x = 0 then (if e = 0 then 1 else 0) else x ^ e.num.toNat

/-- Point update of a rational matrix cell, `M[a][b] = v`. -/
def msetQ (M : ℕ → ℕ → ℚ) (a b : ℕ) (v : ℚ) : ℕ → ℕ → ℚ :=
  fun x y => if x = a ∧ y = b then v else M x y

/-- Point update of an optional-rational matrix cell. -/
def msetO (M : ℕ → ℕ → Option ℚ) (a b : ℕ) (v : Option ℚ) : ℕ → ℕ → Option ℚ :=
  fun x y => if x = a ∧ y = b then v else M x y

/-- `_initialize_matrices`, distance part: start from the all-`inf`
matrix (`np.full(..., float('inf'))`) and for each `(node1, node2, weight)`
edge set `D[i][j] = weight` and `D[j][i] = weight`, where `i`, `j` are the
positions of the node names in the key list (`self.node_indices`).
`List.indexOf` returns the list length for an unknown name, matching the
fact that such edges never touch in-range cells (Python would raise
KeyError there; the claims only concern edges over known nodes). -/
def buildDistances (nodes : List String) (edges : List (String × String × ℚ)) :
    ℕ → ℕ → Option ℚ :=
  edges.foldl
    (fun D e =>
      msetO (msetO D (nodes.indexOf e.1) (nodes.indexOf e.2.1) (some e.2.2))
        (nodes.indexOf e.2.1) (nodes.indexOf e.1) (some e.2.2))
    (fun _ _ => none)

/-- `_initialize_matrices`, visibility part: `V[i][j] = 1/D[i][j]` where
the distance is finite, else `0` (`np.zeros_like` + mask). -/
def visibilityOf (nodes : List String) (edges : List (String × String × ℚ)) :
    ℕ → ℕ → ℚ :=
  fun i j =>
    match buildDistances nodes edges i j with
    | none => 0
    | some d => 1 / d

/-- The immutable data a `TravelingSalesmanSolver` instance carries after
`__init__`: input copies, validated parameters, node count, and the
distance/visibility matrices (read-only after construction). -/
structure Solver where
  node_names : List String
  edges : List (String × String × ℚ)
  num_ants : ℤ
  num_iterations : ℤ
  alpha : ℚ
  beta : ℚ
  evaporation_rate : ℚ
  initial_pheromone : ℚ
  num_nodes : ℕ
  distances : ℕ → ℕ → Option ℚ
  visibility : ℕ → ℕ → ℚ

/-- `TravelingSalesmanSolver.__init__`: the four fail-fast validation
checks in source order, then matrix construction.  `nodes` is the key
list of the node→position dict (positions are ignored by the solver). -/
def mkSolver (nodes : List String) (edges : List (String × String × ℚ))
    (num_ants num_iterations : ℤ)
    (alpha beta evaporation_rate initial_pheromone : ℚ) : Except String Solver :=
  if num_ants ≤ 0 ∨ num_iterations ≤ 0 then
    .error "num_ants and num_iterations must be positive"
  else if alpha < 0 ∨ beta < 0 then
    .error "alpha and beta must be non-negative"
  else if ¬ (0 ≤ evaporation_rate ∧ evaporation_rate ≤ 1) then
    .error "evaporation_rate must be between 0 and 1"
  else if initial_pheromone ≤ 0 then
    .error "initial_pheromone must be positive"
  else
    .ok
      { node_names := nodes
        edges := edges
        num_ants := num_ants
        num_iterations := num_iterations
        alpha := alpha
        beta := beta
        evaporation_rate := evaporation_rate
        initial_pheromone := initial_pheromone
        num_nodes := nodes.length
        distances := buildDistances nodes edges
        visibility := visibilityOf nodes edges }

/-- The memoised probability cache `self._probability_cache`: a Python
dict from directed index pairs to floats, modelled as an insertion-ordered
association list with unique keys. -/
abbrev Cache := List ((ℕ × ℕ) × ℚ)

/-- Dict lookup (first matching key; keys are unique by construction). -/
def cacheLookup : Cache → ℕ × ℕ → Option ℚ
  | [], _ => none
  | e :: rest, k => if e.1 = k then some e.2 else cacheLookup rest k

/-- The value `_probability` memoises:
`pheromones[i][j] ** alpha * visibility[i][j] ** beta`. -/
def probFormula (S : Solver) (P : ℕ → ℕ → ℚ) (i j : ℕ) : ℚ :=
  fpow (P i j) S.alpha * fpow (S.visibility i j) S.beta

/-- `_probability(i, j)`: return the cached value if present, otherwise
compute it from the current matrices and insert it. -/
def probability (S : Solver) (P : ℕ → ℕ → ℚ) (cache : Cache) (i j : ℕ) :
    ℚ × Cache :=
  match cacheLookup cache (i, j) with
  | some v => (v, cache)
  | none => (probFormula S P i j, cache ++ [((i, j), probFormula S P i j)])

/-- The candidate-scoring loop of `_choose_next_node`: for each unvisited
`j` in order, append its desirability (0 when `D[current][j]` is `inf`,
in which case `_probability` is not consulted) and accumulate the total.
Returns the `(node, score)` pairs, the total, and the updated cache.
(The source accumulates the total left-to-right; ℚ addition being
associative and commutative, the value is the same.) -/
def probsAux (S : Solver) (P : ℕ → ℕ → ℚ) (cur : ℕ) :
    Cache → List ℕ → List (ℕ × ℚ) × ℚ × Cache
  | cache, [] => ([], 0, cache)
  | cache, j :: rest =>
    if S.distances cur j ≠ none then
      let pr := probability S P cache cur j
      let t := probsAux S P cur pr.2 rest
      ((j, pr.1) :: t.1, pr.1 + t.2.1, t.2.2)
    else
      let t := probsAux S P cur cache rest
      ((j, 0) :: t.1, t.2.1, t.2.2)

/-- The roulette walk of `_choose_next_node`: accumulate `cumsum += prob`
and return the first node with `cumsum >= r`; `none` when the list is
exhausted (then the source falls back to `nodes[-1]`). -/
def rouletteWalk : List (ℕ × ℚ) → ℚ → ℚ → Option ℕ
  | [], _, _ => none
  | (j, p) :: rest, cum, r =>
    if r ≤ cum + p then some j else rouletteWalk rest (cum + p) r

/-- The random-draw oracle: `randreal k` models the `k`-th value returned
by `random.random()` (a value in [0,1)); `randnat k % n` models the `k`-th
`random.randrange(n)`. -/
structure Oracle where
  randreal : ℕ → ℚ
  randnat : ℕ → ℕ

/-- `_choose_next_node(current_index, unvisited)`.  Returns the chosen
node (or `none`), the updated cache, and the updated `randreal` index
(`random.random()` is consumed only when the total is nonzero). -/
def chooseNext (S : Solver) (P : ℕ → ℕ → ℚ) (cache : Cache) (cur : ℕ)
    (unvisited : List ℕ) (o : Oracle) (ri : ℕ) : Option ℕ × Cache × ℕ :=
  if unvisited = [] then (none, cache, ri)
  else
    let t := probsAux S P cur cache unvisited
    if t.2.1 = 0 then (none, t.2.2, ri)
    else
      let r := o.randreal ri * t.2.1
      match rouletteWalk t.1 0 r with
      | some j => (some j, t.2.2, ri + 1)
      | none => (unvisited.getLast?, t.2.2, ri + 1)

/-- The tour-construction `while unvisited:` loop of `solve`.  The fuel
argument is initialised to `unvisited.length`; every loop iteration moves
one chosen node from `unvisited` into the path, so the fuel never runs out
before the loop's own exit conditions fire.  Returns the grown path, the
remaining unvisited list, the cache and the `randreal` index. -/
def antLoop (S : Solver) (P : ℕ → ℕ → ℚ) (o : Oracle) :
    ℕ → ℕ → List ℕ → List ℕ → Cache → ℕ → List ℕ × List ℕ × Cache × ℕ
  | 0, _, path, unvisited, cache, ri => (path, unvisited, cache, ri)
  | fuel + 1, cur, path, unvisited, cache, ri =>
    if unvisited = [] then (path, unvisited, cache, ri)
    else
      match chooseNext S P cache cur unvisited o ri with
      | (none, cache1, ri1) => (path, unvisited, cache1, ri1)
      | (some j, cache1, ri1) =>
        antLoop S P o fuel j (path ++ [j]) (unvisited.erase j) cache1 ri1

/-- `sum(D[p[i]][p[i+1]] for i in range(len(p)-1))` over a weight
function into `Option ℚ` (float `inf` propagates through the sum; the
source sums left-to-right, same value by associativity/commutativity). -/
def pathCostBy {α : Type} (w : α → α → Option ℚ) : List α → Option ℚ
  | a :: b :: rest => oadd (w a b) (pathCostBy w (b :: rest))
  | _ => some 0

/-- Tour cost against the solver's distance matrix. -/
def pathCostD (D : ℕ → ℕ → Option ℚ) (p : List ℕ) : Option ℚ :=
  pathCostBy D p

/-- The running best-tour update in `solve`:
`if cost < best_cost: best_cost, best_path, stagnation_counter = cost, path, 0`. -/
def updateBest (bp : Option (List ℕ)) (bc : Option ℚ) (stag : ℕ)
    (p : List ℕ) (c : Option ℚ) : Option (List ℕ) × Option ℚ × ℕ :=
  if olt c bc then (some p, c, 0) else (bp, bc, stag)

/-- The mutable state threaded through one iteration's ant loop. -/
structure AntsAcc where
  cache : Cache
  ri : ℕ
  rn : ℕ
  best_path : Option (List ℕ)
  best_cost : Option ℚ
  stagnation : ℕ
  paths : List (List ℕ)
  costs : List (Option ℚ)
  deriving Repr

/-- One ant of `solve`'s inner loop: pick a random start, run the
construction loop, and—if all nodes were visited and the closing edge is
finite—record the closed path, its cost, and possibly a new best.
(The source's `iteration_best_cost` variable is computed but never read,
so it is not modelled.) -/
def antOnce (S : Solver) (P : ℕ → ℕ → ℚ) (o : Oracle) (acc : AntsAcc) : AntsAcc :=
  let start := o.randnat acc.rn % S.num_nodes
  let unvisited := (List.range S.num_nodes).filter (fun j => j ≠ start)
  let t := antLoop S P o unvisited.length start [start] unvisited acc.cache acc.ri
  if t.2.1 = [] ∧ S.distances (t.1.getLastD 0) (t.1.headD 0) ≠ none then
    let closed := t.1 ++ [t.1.headD 0]
    let cost := pathCostD S.distances closed
    let b := updateBest acc.best_path acc.best_cost acc.stagnation closed cost
    { cache := t.2.2.1, ri := t.2.2.2, rn := acc.rn + 1,
      best_path := b.1, best_cost := b.2.1, stagnation := b.2.2,
      paths := acc.paths ++ [closed], costs := acc.costs ++ [cost] }
  else
    { acc with cache := t.2.2.1, ri := t.2.2.2, rn := acc.rn + 1 }

/-- `for _ in range(self.num_ants)`: run the ants sequentially. -/
def antsRun (S : Solver) (P : ℕ → ℕ → ℚ) (o : Oracle) :
    ℕ → AntsAcc → AntsAcc
  | 0, acc => acc
  | k + 1, acc => antsRun S P o k (antOnce S P o acc)

/-- The ordered list of unordered index pairs `i < j < n`, in the order
the source's nested `for i / for j in range(i+1, n)` loops visit them. -/
def pairList (n : ℕ) : List (ℕ × ℕ) :=
  ((List.range n).map (fun i => (List.range' (i + 1) (n - (i + 1))).map (fun j => (i, j)))).flatten

/-- One evaporation statement pair of `_update_pheromones`:
`P[i][j] *= (1 - rho); P[j][i] = P[i][j]`. -/
def evapStep (k : ℚ) (P : ℕ → ℕ → ℚ) (pr : ℕ × ℕ) : ℕ → ℕ → ℚ :=
  let P1 := msetQ P pr.1 pr.2 (P pr.1 pr.2 * k)
  msetQ P1 pr.2 pr.1 (P1 pr.1 pr.2)

/-- One deposit statement pair of `_update_pheromones`:
`P[s][e] += d; P[e][s] = P[s][e]`. -/
def depositStep (d : ℚ) (P : ℕ → ℕ → ℚ) (pr : ℕ × ℕ) : ℕ → ℕ → ℚ :=
  let P1 := msetQ P pr.1 pr.2 (P pr.1 pr.2 + d)
  msetQ P1 pr.2 pr.1 (P1 pr.1 pr.2)

/-- The consecutive index pairs `(path[i], path[i+1])` of a path. -/
def consecPairs : List ℕ → List (ℕ × ℕ)
  | a :: b :: rest => (a, b) :: consecPairs (b :: rest)
  | _ => []

/-- `_update_pheromones(paths, costs)`: clear the probability cache,
evaporate every `i < j` pair symmetrically, then deposit `1/cost`
(doubled when `cost` equals the round minimum) along every consecutive
edge of every path, symmetrically.  Returns the new pheromone matrix and
the (cleared) cache. -/
def updatePheromones (S : Solver) (P : ℕ → ℕ → ℚ)
    (paths : List (List ℕ)) (costs : List (Option ℚ)) :
    (ℕ → ℕ → ℚ) × Cache :=
  let Pe := (pairList S.num_nodes).foldl (evapStep (1 - S.evaporation_rate)) P
  let m := minCostList costs
  let Pd := (paths.zip costs).foldl
    (fun Q pc =>
      let d := oinv pc.2
      let d := if pc.2 = m then d * 2 else d
      (consecPairs pc.1).foldl (depositStep d) Q)
    Pe
  (Pd, [])

/-- The stagnation reset of `solve`: for every `i < j` pair draw
`random.random()` and, with probability 0.1, reset both mirrored cells to
`initial_pheromone`.  (The probability cache is *not* touched here.)
Returns the new matrix and the advanced `randreal` index. -/
def resetLoop (S : Solver) (P : ℕ → ℕ → ℚ) (o : Oracle) (ri : ℕ) :
    (ℕ → ℕ → ℚ) × ℕ :=
  (pairList S.num_nodes).foldl
    (fun acc pr =>
      if o.randreal acc.2 < 1 / 10 then
        (msetQ (msetQ acc.1 pr.1 pr.2 S.initial_pheromone) pr.2 pr.1 S.initial_pheromone,
          acc.2 + 1)
      else (acc.1, acc.2 + 1))
    (P, ri)

/-- The mutable per-`solve` state at an iteration boundary. -/
structure AcoState where
  pheromones : ℕ → ℕ → ℚ
  cache : Cache
  best_path : Option (List ℕ)
  best_cost : Option ℚ
  stagnation : ℕ
  ri : ℕ
  rn : ℕ

/-- The state at `solve`'s entry: pheromones `np.full(..., initial)`,
empty cache (both set by `__init__`; the instance is used once), no best
path, `best_cost = inf`, zero stagnation counter, fresh oracle streams. -/
def initState (S : Solver) : AcoState :=
  { pheromones := fun _ _ => S.initial_pheromone
    cache := []
    best_path := none
    best_cost := none
    stagnation := 0
    ri := 0
    rn := 0 }

/-- One iteration of `solve`'s outer loop: run the ants, update
pheromones when at least one path closed, bump the stagnation counter and
possibly perform the random reset.  Also returns the round's closed
paths. -/
def iterStep (S : Solver) (o : Oracle) (st : AcoState) : AcoState × List (List ℕ) :=
  let acc := antsRun S st.pheromones o S.num_ants.toNat
    { cache := st.cache, ri := st.ri, rn := st.rn,
      best_path := st.best_path, best_cost := st.best_cost,
      stagnation := st.stagnation, paths := [], costs := [] }
  let pc :=
    if acc.paths.isEmpty then (st.pheromones, acc.cache)
    else updatePheromones S st.pheromones acc.paths acc.costs
  let stag1 := acc.stagnation + 1
  (if 20 ≤ stag1 then
    let pr := resetLoop S pc.1 o acc.ri
    { pheromones := pr.1, cache := pc.2, best_path := acc.best_path,
      best_cost := acc.best_cost, stagnation := 0, ri := pr.2, rn := acc.rn }
  else
    { pheromones := pc.1, cache := pc.2, best_path := acc.best_path,
      best_cost := acc.best_cost, stagnation := stag1, ri := acc.ri, rn := acc.rn },
    acc.paths)

/-- The solver state after `k` iterations of `solve`'s outer loop. -/
def solveIters (S : Solver) (o : Oracle) : ℕ → AcoState
  | 0 => initState S
  | k + 1 => (iterStep S o (solveIters S o k)).1

/-- The closed paths recorded during iteration `k` (0-based). -/
def roundPaths (S : Solver) (o : Oracle) (k : ℕ) : List (List ℕ) :=
  (iterStep S o (solveIters S o k)).2

/-- The structured result `solve` returns.  `time_taken` (wall-clock
seconds) is not modelled. -/
structure SolveResult where
  solution : Option (List String)
  cost : Option ℚ
  iterations : ℤ
  message : String
  deriving Repr, DecidableEq

/-- `solve()`.  Python raises before producing a result in exactly two
situations, modelled as `Except.error`:
* `num_iterations <= 0`: the loop body never runs and the result dict
  reads the unassigned variable `iteration` (NameError);
* otherwise, if the graph has no nodes and at least one ant runs, the
  very first statement of iteration 0 calls `random.randrange(0)`
  (ValueError).  Construction validation guarantees at least one
  iteration and one ant, so on validated instances the second case fires
  exactly when `num_nodes = 0`.
In every other case the loop runs to completion and the result is
assembled from the final state (`iteration + 1` equals `num_iterations`). -/
def solve (S : Solver) (o : Oracle) : Except String SolveResult :=
  if S.num_iterations ≤ 0 then
    .error "NameError: name 'iteration' is not defined"
  else if S.num_nodes = 0 ∧ 0 < S.num_ants then
    .error "ValueError: empty range for randrange()"
  else
    let fin := solveIters S o S.num_iterations.toNat
    .ok
      { solution := fin.best_path.map (fun p => p.map (fun i => S.node_names.getD i ""))
        cost := fin.best_cost
        iterations := S.num_iterations
        message :=
          if fin.best_path.isSome then "Solution found successfully."
          else "No solution exists. The graph does not allow a complete tour." }

/-! ### Specification-side definitions (for the refinement parts of the
claims; these are written from the spec's words, to be compared with the
source-derived definitions above). -/

/-- The weight the input edge list assigns to an unordered node-name
pair: edges are undirected and a later duplicate overwrites an earlier
one (last write wins), mirroring the matrix build order. -/
def lookupEdgeWeight (edges : List (String × String × ℚ)) (a b : String) : Option ℚ :=
  edges.foldl
    (fun acc e =>
      if (e.1 = a ∧ e.2.1 = b) ∨ (e.1 = b ∧ e.2.1 = a) then some e.2.2 else acc)
    none

/-- A tour's cost recomputed independently from the input edge list. -/
def pathCostSpec (edges : List (String × String × ℚ)) (p : List String) : Option ℚ :=
  pathCostBy (lookupEdgeWeight edges) p

/-- A closed tour over `n` nodes: some nonempty node-index sequence `q`
visiting each of `0..n-1` exactly once, closed by repeating its head. -/
def ClosedTour (n : ℕ) (p : List ℕ) : Prop :=
  ∃ q : List ℕ, q ≠ [] ∧ p = q ++ [q.headD 0] ∧ q.Perm (List.range n)

/-- The best-so-far fields are either both absent or describe a closed
tour whose recorded (finite) cost is its distance-matrix cost. -/
def GoodBest (S : Solver) (bp : Option (List ℕ)) (bc : Option ℚ) : Prop :=
  match bp with
  | none => bc = none
  | some p => ClosedTour S.num_nodes p ∧ bc = pathCostD S.distances p ∧ bc ≠ none

/-- Every cache entry equals the probability formula evaluated on the
*current* pheromone (and visibility) matrices. -/
def cacheCoherent (S : Solver) (st : AcoState) : Prop :=
  ∀ e ∈ st.cache, e.2 = probFormula S st.pheromones e.1.1 e.1.2

/-- Non-strict order on best costs (`none` is `+inf`). -/
def Ole (a b : Option ℚ) : Prop := olt a b = true ∨ a = b

/-- The all-zeros oracle: every `random.random()` draw is 0.0 (a possible
value, since `random.random()` ranges over [0,1)), every `randrange`
draw is 0. -/
def zeroOracle : Oracle := ⟨fun _ => 0, fun _ => 0⟩

/-- The number of times a path traverses the unordered edge `{i, j}`. -/
def countEdge (p : List ℕ) (i j : ℕ) : ℕ :=
  ((consecPairs p).filter
    (fun pr => (pr.1 = i ∧ pr.2 = j) ∨ (pr.1 = j ∧ pr.2 = i))).length

instance (S : Solver) (st : AcoState) : Decidable (cacheCoherent S st) := by
  unfold cacheCoherent; infer_instance

/-! ### Concrete instances used to witness or refute the claims. -/

/-- An oracle whose `random.random()` draws are all 1/2 and whose
`randrange` draws are all 0. -/
def halfOracle : Oracle := ⟨fun _ => 1 / 2, fun _ => 0⟩

/-- Fully connected triangle with unit weights. -/
def triangleEdges : List (String × String × ℚ) :=
  [("A", "B", 1), ("B", "C", 1), ("A", "C", 1)]

/-- The solver instance `mkSolver ["A","B","C"] triangleEdges 1 1 1 1 0 (1/10)`
constructs (1 ant, 1 iteration, alpha = beta = 1, no evaporation). -/
def triangleSolver : Solver :=
  { node_names := ["A", "B", "C"]
    edges := triangleEdges
    num_ants := 1
    num_iterations := 1
    alpha := 1
    beta := 1
    evaporation_rate := 0
    initial_pheromone := 1 / 10
    num_nodes := (["A", "B", "C"] : List String).length
    distances := buildDistances ["A", "B", "C"] triangleEdges
    visibility := visibilityOf ["A", "B", "C"] triangleEdges }

/-- Two nodes joined by one unit edge. -/
def twoNodeSolver : Solver :=
  { node_names := ["A", "B"]
    edges := [("A", "B", 1)]
    num_ants := 1
    num_iterations := 1
    alpha := 1
    beta := 1
    evaporation_rate := 0
    initial_pheromone := 1 / 10
    num_nodes := (["A", "B"] : List String).length
    distances := buildDistances ["A", "B"] [("A", "B", 1)]
    visibility := visibilityOf ["A", "B"] [("A", "B", 1)] }

/-- One node, no edges. -/
def oneNodeSolver : Solver :=
  { node_names := ["A"]
    edges := []
    num_ants := 1
    num_iterations := 1
    alpha := 1
    beta := 1
    evaporation_rate := 0
    initial_pheromone := 1 / 10
    num_nodes := (["A"] : List String).length
    distances := buildDistances ["A"] []
    visibility := visibilityOf ["A"] [] }

/-- Three nodes with the single edge B–C (node A isolated), default-like
parameters.  Node 2 (C) can reach node 1 (B) but not node 0 (A). -/
def lineSolver3 : Solver :=
  { node_names := ["A", "B", "C"]
    edges := [("B", "C", 1)]
    num_ants := 20
    num_iterations := 150
    alpha := 1
    beta := 1
    evaporation_rate := 1 / 10
    initial_pheromone := 1 / 10
    num_nodes := (["A", "B", "C"] : List String).length
    distances := buildDistances ["A", "B", "C"] [("B", "C", 1)]
    visibility := visibilityOf ["A", "B", "C"] [("B", "C", 1)] }

/-- Four nodes, all unit edges except the missing B–D edge: an ant that
walks B,C,A,D cannot close its tour, while B,A,D,C,B is a Hamiltonian
cycle of cost 4. -/
def demoEdges4 : List (String × String × ℚ) :=
  [("A", "B", 1), ("A", "C", 1), ("A", "D", 1), ("B", "C", 1), ("C", "D", 1)]

/-- Scripted `random.random()` draws for `demoSolver4`: iteration 0 builds
the tour B,A,D,C,B; iterations 1–19 build the non-closable walk B,C,A,D;
draw 60 (the first stagnation-reset draw, for pair (0,1)) is 0 < 0.1, so
that pair is reset; all later draws are 1/2. -/
def r20 (k : ℕ) : ℚ :=
  if k < 3 then (if k = 1 then 3 / 4 else 0)
  else if k < 60 then (if k % 3 = 0 then 3 / 4 else 0)
  else if k = 60 then 0 else 1 / 2

/-- Oracle for `demoSolver4`: every ant starts at node 1 (B). -/
def demoOracle4 : Oracle := ⟨r20, fun _ => 1⟩

/-- One ant, twenty iterations, alpha = beta = 1, no evaporation, over
the `demoEdges4` graph. -/
def demoSolver4 : Solver :=
  { node_names := ["A", "B", "C", "D"]
    edges := demoEdges4
    num_ants := 1
    num_iterations := 20
    alpha := 1
    beta := 1
    evaporation_rate := 0
    initial_pheromone := 1 / 10
    num_nodes := (["A", "B", "C", "D"] : List String).length
    distances := buildDistances ["A", "B", "C", "D"] demoEdges4
    visibility := visibilityOf ["A", "B", "C", "D"] demoEdges4 }

/-! ## Theorems -/

theorem triangleSolver_mk :
    mkSolver ["A", "B", "C"] triangleEdges 1 1 1 1 0 (1 / 10) = .ok triangleSolver := rfl

theorem twoNodeSolver_mk :
    mkSolver ["A", "B"] [("A", "B", 1)] 1 1 1 1 0 (1 / 10) = .ok twoNodeSolver := rfl

theorem oneNodeSolver_mk :
    mkSolver ["A"] [] 1 1 1 1 0 (1 / 10) = .ok oneNodeSolver := rfl

theorem lineSolver3_mk :
    mkSolver ["A", "B", "C"] [("B", "C", 1)] 20 150 1 1 (1 / 10) (1 / 10) = .ok lineSolver3 := rfl

theorem demoSolver4_mk :
    mkSolver ["A", "B", "C", "D"] demoEdges4 1 20 1 1 0 (1 / 10) = .ok demoSolver4 := rfl

/-- C3: construction fails with a configuration error exactly when one of
the parameter constraints is violated; otherwise it succeeds. -/
theorem C3_construction_validation (nodes : List String)
    (edges : List (String × String × ℚ)) (na ni : ℤ) (a b er ip : ℚ) :
    (∃ e, mkSolver nodes edges na ni a b er ip = .error e) ↔
      (na ≤ 0 ∨ ni ≤ 0 ∨ a < 0 ∨ b < 0 ∨ er < 0 ∨ 1 < er ∨ ip ≤ 0) := by
  constructor
  · rintro ⟨e, he⟩
    unfold mkSolver at he
    split_ifs at he
    all_goals first
      | tauto
      | exact Except.noConfusion he
      | · rcases not_and_or.mp (by assumption : ¬(0 ≤ er ∧ er ≤ 1)) with h | h
          · exact Or.inr (Or.inr (Or.inr (Or.inr (Or.inl (not_le.mp h)))))
          · exact Or.inr (Or.inr (Or.inr (Or.inr (Or.inr (Or.inl (not_le.mp h))))))
  · intro hcon
    unfold mkSolver
    split_ifs
    any_goals exact ⟨_, rfl⟩
    exfalso
    rcases hcon with h | h | h | h | h | h | h <;>
      first
        | tauto
        | exact absurd h (not_lt.mpr (And.left (by assumption)))
        | exact absurd h (not_lt.mpr (And.right (by assumption)))

/-- C2 counterexample: on the empty graph (no nodes, hence no edges and
fewer than 2 nodes) with the default — valid — configuration,
construction succeeds but `solve` raises `random.randrange(0)`'s
ValueError in its very first ant instead of returning an infeasibility
result. -/
theorem C2_counterexample :
    Except.bind (mkSolver [] [] 20 150 1 (5 / 2) (1 / 10) (1 / 10))
      (fun S => solve S zeroOracle)
      = .error "ValueError: empty range for randrange()" := rfl

/-- One ant's construction never changes the stagnation counter upwards. -/
theorem antOnce_stag_le (S : Solver) (P : ℕ → ℕ → ℚ) (o : Oracle) (acc : AntsAcc) :
    (antOnce S P o acc).stagnation ≤ acc.stagnation := by
  simp only [antOnce]
  split_ifs with h
  · simp only [updateBest]
    split_ifs
    · exact Nat.zero_le _
    · exact Nat.le_refl _
  · exact Nat.le_refl _

/-- The whole ant loop never increases the stagnation counter. -/
theorem antsRun_stag_le (S : Solver) (P : ℕ → ℕ → ℚ) (o : Oracle) :
    ∀ (k : ℕ) (acc : AntsAcc), (antsRun S P o k acc).stagnation ≤ acc.stagnation := by
  intro k
  induction k with
  | zero => intro acc; exact Nat.le_refl _
  | succ n ih =>
    intro acc
    exact Nat.le_trans (ih (antOnce S P o acc)) (antOnce_stag_le S P o acc)

/-- C8 (amended): in an iteration in which zero ants closed a cycle, the
pheromone update is skipped and — provided the stagnation reset does not
fire in that iteration — the pheromone matrix is unchanged. -/
theorem C8_zero_paths_frame (S : Solver) (o : Oracle) (st : AcoState)
    (hzero : (iterStep S o st).2 = [])
    (hstag : st.stagnation + 1 < 20) :
    (iterStep S o st).1.pheromones = st.pheromones := by
  have hacc := antsRun_stag_le S st.pheromones o S.num_ants.toNat
    { cache := st.cache, ri := st.ri, rn := st.rn,
      best_path := st.best_path, best_cost := st.best_cost,
      stagnation := st.stagnation, paths := [], costs := [] }
  simp only [iterStep] at hzero ⊢
  dsimp only at hacc
  rw [if_neg (by omega)]
  simp only [hzero, List.isEmpty_nil, if_pos]

/-- Witness for `C8_zero_paths_frame`: one node, no edges, first
iteration — the ant cannot close a tour and the matrix is untouched. -/
theorem C8_zero_paths_frame_witness :
    (iterStep oneNodeSolver zeroOracle (initState oneNodeSolver)).2 = [] ∧
      (initState oneNodeSolver).stagnation + 1 < 20 ∧
      (iterStep oneNodeSolver zeroOracle (initState oneNodeSolver)).1.pheromones
        = (initState oneNodeSolver).pheromones :=
  ⟨by decide, by decide,
    C8_zero_paths_frame oneNodeSolver zeroOracle (initState oneNodeSolver)
      (by decide) (by decide)⟩

set_option maxRecDepth 400000 in
/-- C8 counterexample: in iteration 19 of `demoSolver4`'s run zero ants
close a cycle, yet the pheromone matrix changes in that iteration — the
stagnation counter reaches 20 there and the random reset overwrites the
pair (0,1), which earlier updates had moved away from its initial value. -/
theorem C8_counterexample :
    mkSolver ["A", "B", "C", "D"] demoEdges4 1 20 1 1 0 (1 / 10) = .ok demoSolver4 ∧
      roundPaths demoSolver4 demoOracle4 19 = [] ∧
      (solveIters demoSolver4 demoOracle4 20).pheromones 0 1
        ≠ (solveIters demoSolver4 demoOracle4 19).pheromones 0 1 :=
  ⟨rfl, by decide, by decide⟩

set_option maxRecDepth 400000 in
/-- C9: after the stagnation reset at the end of iteration 19 of
`demoSolver4`'s run, the probability cache is nonempty and holds an entry
that no longer equals `pheromones^alpha * visibility^beta` for the current
matrices — the reset changed the pheromones without clearing the cache. -/
theorem C9_cache_stale :
    mkSolver ["A", "B", "C", "D"] demoEdges4 1 20 1 1 0 (1 / 10) = .ok demoSolver4 ∧
      (solveIters demoSolver4 demoOracle4 20).cache ≠ [] ∧
      ¬ cacheCoherent demoSolver4 (solveIters demoSolver4 demoOracle4 20) :=
  ⟨rfl, by decide, by decide⟩

/-- C5 counterexample: `lineSolver3` has the single edge B–C; an ant
starting at node 2 (C) calls `_choose_next_node(2, {0, 1})` (this is its
start state), and when `random.random()` returns 0.0 — a value it can
take — the cumulative-sum walk accepts the first candidate, node 0 (A),
although `D[2][0]` is infinite: the chosen node is *not* reachable, and
the call did not return "no candidate" even though its total came only
from node 1. -/
theorem C5_counterexample :
    mkSolver ["A", "B", "C"] [("B", "C", 1)] 20 150 1 1 (1 / 10) (1 / 10)
        = .ok lineSolver3 ∧
      (chooseNext lineSolver3 (initState lineSolver3).pheromones
          (initState lineSolver3).cache 2 [0, 1] zeroOracle 0).1 = some 0 ∧
      lineSolver3.distances 2 0 = none :=
  ⟨rfl, by decide, by decide⟩

/-! ### Pheromone-matrix symmetry (C4) -/

theorem msetQ_self (P : ℕ → ℕ → ℚ) (a b : ℕ) (v : ℚ) : msetQ P a b v a b = v := by
  simp [msetQ]

/-- A mirrored pair of writes (`M[a][b] = v; M[b][a] = M[a][b]`) keeps a
symmetric matrix symmetric. -/
theorem mirrorWrite_symm (P : ℕ → ℕ → ℚ) (hP : ∀ x y, P x y = P y x)
    (a b : ℕ) (v w : ℚ) (hw : w = v) (x y : ℕ) :
    msetQ (msetQ P a b v) b a w x y = msetQ (msetQ P a b v) b a w y x := by
  subst hw
  simp only [msetQ]
  split_ifs <;> first | rfl | exact hP x y | tauto

theorem evapStep_symm (k : ℚ) (P : ℕ → ℕ → ℚ) (pr : ℕ × ℕ)
    (hP : ∀ x y, P x y = P y x) (x y : ℕ) :
    evapStep k P pr x y = evapStep k P pr y x := by
  simp only [evapStep]
  exact mirrorWrite_symm P hP pr.1 pr.2 _ _ (msetQ_self P pr.1 pr.2 _) x y

theorem depositStep_symm (d : ℚ) (P : ℕ → ℕ → ℚ) (pr : ℕ × ℕ)
    (hP : ∀ x y, P x y = P y x) (x y : ℕ) :
    depositStep d P pr x y = depositStep d P pr y x := by
  simp only [depositStep]
  exact mirrorWrite_symm P hP pr.1 pr.2 _ _ (msetQ_self P pr.1 pr.2 _) x y

theorem foldl_evapStep_symm (k : ℚ) :
    ∀ (l : List (ℕ × ℕ)) (P : ℕ → ℕ → ℚ), (∀ x y, P x y = P y x) →
      ∀ x y, (l.foldl (evapStep k) P) x y = (l.foldl (evapStep k) P) y x := by
  intro l
  induction l with
  | nil => intro P hP x y; exact hP x y
  | cons pr rest ih =>
    intro P hP x y
    exact ih (evapStep k P pr) (evapStep_symm k P pr hP) x y

theorem foldl_depositStep_symm (d : ℚ) :
    ∀ (l : List (ℕ × ℕ)) (P : ℕ → ℕ → ℚ), (∀ x y, P x y = P y x) →
      ∀ x y, (l.foldl (depositStep d) P) x y = (l.foldl (depositStep d) P) y x := by
  intro l
  induction l with
  | nil => intro P hP x y; exact hP x y
  | cons pr rest ih =>
    intro P hP x y
    exact ih (depositStep d P pr) (depositStep_symm d P pr hP) x y

theorem depositAll_symm :
    ∀ (l : List (List ℕ × Option ℚ)) (m : Option ℚ) (P : ℕ → ℕ → ℚ),
      (∀ x y, P x y = P y x) →
      ∀ x y,
        (l.foldl (fun Q pc =>
          (consecPairs pc.1).foldl
            (depositStep (if pc.2 = m then oinv pc.2 * 2 else oinv pc.2)) Q) P) x y
        = (l.foldl (fun Q pc =>
          (consecPairs pc.1).foldl
            (depositStep (if pc.2 = m then oinv pc.2 * 2 else oinv pc.2)) Q) P) y x := by
  intro l
  induction l with
  | nil => intro m P hP x y; exact hP x y
  | cons pc rest ih =>
    intro m P hP x y
    exact ih m _ (foldl_depositStep_symm _ _ P hP) x y

theorem updatePheromones_symm (S : Solver) (P : ℕ → ℕ → ℚ)
    (paths : List (List ℕ)) (costs : List (Option ℚ))
    (hP : ∀ x y, P x y = P y x) (x y : ℕ) :
    (updatePheromones S P paths costs).1 x y = (updatePheromones S P paths costs).1 y x := by
  simp only [updatePheromones]
  exact depositAll_symm (paths.zip costs) (minCostList costs) _
    (foldl_evapStep_symm _ (pairList S.num_nodes) P hP) x y

theorem resetLoop_symm (S : Solver) (o : Oracle) :
    ∀ (l : List (ℕ × ℕ)) (P : ℕ → ℕ → ℚ) (ri : ℕ), (∀ x y, P x y = P y x) →
      ∀ x y,
        (l.foldl (fun acc pr =>
          if o.randreal acc.2 < 1 / 10 then
            (msetQ (msetQ acc.1 pr.1 pr.2 S.initial_pheromone) pr.2 pr.1 S.initial_pheromone,
              acc.2 + 1)
          else (acc.1, acc.2 + 1)) (P, ri)).1 x y
        = (l.foldl (fun acc pr =>
          if o.randreal acc.2 < 1 / 10 then
            (msetQ (msetQ acc.1 pr.1 pr.2 S.initial_pheromone) pr.2 pr.1 S.initial_pheromone,
              acc.2 + 1)
          else (acc.1, acc.2 + 1)) (P, ri)).1 y x := by
  intro l
  induction l with
  | nil => intro P ri hP x y; exact hP x y
  | cons pr rest ih =>
    intro P ri hP x y
    simp only [List.foldl_cons]
    split_ifs with h
    · exact ih _ _ (fun u v =>
        mirrorWrite_symm P hP pr.1 pr.2 S.initial_pheromone S.initial_pheromone rfl u v) x y
    · exact ih _ _ hP x y

theorem resetLoop_symm_top (S : Solver) (P : ℕ → ℕ → ℚ) (o : Oracle) (ri : ℕ)
    (hP : ∀ x y, P x y = P y x) (x y : ℕ) :
    (resetLoop S P o ri).1 x y = (resetLoop S P o ri).1 y x := by
  simp only [resetLoop]
  exact resetLoop_symm S o (pairList S.num_nodes) P ri hP x y

theorem iterStep_pheromones_symm (S : Solver) (o : Oracle) (st : AcoState)
    (hP : ∀ x y, st.pheromones x y = st.pheromones y x) (x y : ℕ) :
    (iterStep S o st).1.pheromones x y = (iterStep S o st).1.pheromones y x := by
  simp only [iterStep]
  split_ifs with h hemp hemp
  · exact resetLoop_symm_top S _ o _ hP x y
  · exact resetLoop_symm_top S _ o _
      (updatePheromones_symm S st.pheromones _ _ hP) x y
  · exact hP x y
  · exact updatePheromones_symm S st.pheromones _ _ hP x y

/-- C4: the pheromone matrix is symmetric at all times: it is symmetric
after construction, every pheromone update and every stagnation reset
preserve symmetry, and therefore every state reached in `solve`'s
iteration loop has a symmetric matrix. -/
theorem C4_pheromone_symmetry :
    (∀ (S : Solver) (i j : ℕ),
      (initState S).pheromones i j = (initState S).pheromones j i)
    ∧ (∀ (S : Solver) (P : ℕ → ℕ → ℚ) (paths : List (List ℕ)) (costs : List (Option ℚ)),
        (∀ x y, P x y = P y x) → ∀ i j,
          (updatePheromones S P paths costs).1 i j = (updatePheromones S P paths costs).1 j i)
    ∧ (∀ (S : Solver) (P : ℕ → ℕ → ℚ) (o : Oracle) (ri : ℕ),
        (∀ x y, P x y = P y x) → ∀ i j,
          (resetLoop S P o ri).1 i j = (resetLoop S P o ri).1 j i)
    ∧ (∀ (S : Solver) (o : Oracle) (k : ℕ) (i j : ℕ),
        (solveIters S o k).pheromones i j = (solveIters S o k).pheromones j i) := by
  refine ⟨fun S i j => rfl,
    fun S P paths costs hP i j => updatePheromones_symm S P paths costs hP i j,
    fun S P o ri hP i j => resetLoop_symm_top S P o ri hP i j, ?_⟩
  intro S o k
  induction k with
  | zero => intro i j; rfl
  | succ n ih => intro i j; exact iterStep_pheromones_symm S o _ ih i j

/-- Witness for `C4_pheromone_symmetry`, instantiating the parts that
carry symmetry hypotheses at a constant-1 matrix and `demoSolver4`. -/
theorem C4_pheromone_symmetry_witness :
    (updatePheromones demoSolver4 (fun _ _ => 1) [[0, 1, 2, 3, 0]] [some 4]).1 0 1
      = (updatePheromones demoSolver4 (fun _ _ => 1) [[0, 1, 2, 3, 0]] [some 4]).1 1 0
    ∧ (resetLoop demoSolver4 (fun _ _ => 1) demoOracle4 0).1 0 2
      = (resetLoop demoSolver4 (fun _ _ => 1) demoOracle4 0).1 2 0
    ∧ (solveIters demoSolver4 demoOracle4 3).pheromones 1 3
      = (solveIters demoSolver4 demoOracle4 3).pheromones 3 1 :=
  ⟨C4_pheromone_symmetry.2.1 demoSolver4 (fun _ _ => 1) [[0, 1, 2, 3, 0]] [some 4]
      (fun _ _ => rfl) 0 1,
    C4_pheromone_symmetry.2.2.1 demoSolver4 (fun _ _ => 1) demoOracle4 0
      (fun _ _ => rfl) 0 2,
    C4_pheromone_symmetry.2.2.2 demoSolver4 demoOracle4 3 1 3⟩

/-! ### Best-cost monotonicity (C7) -/

theorem olt_trans (a b c : Option ℚ) (h1 : olt a b = true) (h2 : olt b c = true) :
    olt a c = true := by
  cases a <;> cases b <;> cases c <;> simp [olt] at *
  exact lt_trans h1 h2

theorem ole_refl (a : Option ℚ) : Ole a a := Or.inr rfl

theorem ole_trans (a b c : Option ℚ) (h1 : Ole a b) (h2 : Ole b c) : Ole a c := by
  rcases h1 with h1 | rfl
  · rcases h2 with h2 | rfl
    · exact Or.inl (olt_trans a b c h1 h2)
    · exact Or.inl h1
  · exact h2

theorem antOnce_bc_ole (S : Solver) (P : ℕ → ℕ → ℚ) (o : Oracle) (acc : AntsAcc) :
    Ole (antOnce S P o acc).best_cost acc.best_cost := by
  simp only [antOnce]
  split_ifs with h
  · simp only [updateBest]
    split_ifs with hlt
    · exact Or.inl hlt
    · exact ole_refl _
  · exact ole_refl _

theorem antsRun_bc_ole (S : Solver) (P : ℕ → ℕ → ℚ) (o : Oracle) :
    ∀ (k : ℕ) (acc : AntsAcc), Ole (antsRun S P o k acc).best_cost acc.best_cost := by
  intro k
  induction k with
  | zero => intro acc; exact ole_refl _
  | succ n ih =>
    intro acc
    exact ole_trans _ _ _ (ih (antOnce S P o acc)) (antOnce_bc_ole S P o acc)

theorem iterStep_bc (S : Solver) (o : Oracle) (st : AcoState) :
    (iterStep S o st).1.best_cost
      = (antsRun S st.pheromones o S.num_ants.toNat
          { cache := st.cache, ri := st.ri, rn := st.rn,
            best_path := st.best_path, best_cost := st.best_cost,
            stagnation := st.stagnation, paths := [], costs := [] }).best_cost := by
  simp only [iterStep]
  split_ifs <;> rfl

/-- C7: within one `solve` call the best cost never increases from one
iteration to the next, and the best path/cost pair is replaced only when
a strictly lower cost is found (otherwise it is left untouched). -/
theorem C7_best_monotone :
    (∀ (S : Solver) (o : Oracle) (k : ℕ),
      Ole (solveIters S o (k + 1)).best_cost (solveIters S o k).best_cost)
    ∧ (∀ (bp : Option (List ℕ)) (bc : Option ℚ) (stag : ℕ) (p : List ℕ) (c : Option ℚ),
        updateBest bp bc stag p c ≠ (bp, bc, stag) →
          olt c bc = true ∧ updateBest bp bc stag p c = (some p, c, 0)) := by
  constructor
  · intro S o k
    rw [solveIters, iterStep_bc]
    exact antsRun_bc_ole S _ o _ _
  · intro bp bc stag p c hne
    unfold updateBest at hne ⊢
    split_ifs at hne ⊢ with h
    · exact ⟨h, rfl⟩
    · exact absurd rfl hne

/-- Witness for `C7_best_monotone`: the monotone part after iteration 0
of the triangle run, and a concrete strict replacement. -/
theorem C7_best_monotone_witness :
    Ole (solveIters triangleSolver zeroOracle 1).best_cost
        (solveIters triangleSolver zeroOracle 0).best_cost
    ∧ (olt (some 2) none = true
        ∧ updateBest none none 7 [0, 1, 0] (some 2) = (some [0, 1, 0], some 2, 0)) :=
  ⟨C7_best_monotone.1 triangleSolver zeroOracle 0,
    C7_best_monotone.2 none none 7 [0, 1, 0] (some 2) (by decide)⟩

/-! ### Node selection (C5) -/

theorem fpow_nonneg (x e : ℚ) (hx : 0 ≤ x) : 0 ≤ fpow x e := by
  unfold fpow
  split_ifs with h1 h2
  · norm_num
  · norm_num
  · exact pow_nonneg hx _

theorem fpow_pos (x e : ℚ) (hx : 0 < x) : 0 < fpow x e := by
  unfold fpow
  rw [if_neg (ne_of_gt hx)]
  exact pow_pos hx _

theorem cacheLookup_mem (cache : Cache) (k : ℕ × ℕ) (v : ℚ)
    (h : cacheLookup cache k = some v) : (k, v) ∈ cache := by
  induction cache with
  | nil => cases h
  | cons e rest ih =>
    unfold cacheLookup at h
    split_ifs at h with he
    · cases h
      rw [← he]
      exact List.mem_cons_self e rest
    · exact List.mem_cons_of_mem e (ih h)

theorem probability_nonneg (S : Solver) (P : ℕ → ℕ → ℚ) (cache : Cache) (i j : ℕ)
    (hP : ∀ x y, 0 ≤ P x y) (hV : ∀ x y, 0 ≤ S.visibility x y)
    (hc : ∀ e ∈ cache, 0 ≤ e.2) :
    0 ≤ (probability S P cache i j).1
      ∧ ∀ e ∈ (probability S P cache i j).2, 0 ≤ e.2 := by
  have hform : 0 ≤ probFormula S P i j :=
    mul_nonneg (fpow_nonneg _ _ (hP i j)) (fpow_nonneg _ _ (hV i j))
  unfold probability
  rcases hl : cacheLookup cache (i, j) with _ | v
  · refine ⟨hform, ?_⟩
    intro e he
    rcases List.mem_append.mp he with h1 | h2
    · exact hc e h1
    · rcases List.mem_singleton.mp h2 with rfl
      exact hform
  · exact ⟨hc _ (cacheLookup_mem cache (i, j) v hl), hc⟩

theorem probsAux_fst (S : Solver) (P : ℕ → ℕ → ℚ) (cur : ℕ) :
    ∀ (l : List ℕ) (cache : Cache),
      (probsAux S P cur cache l).1.map Prod.fst = l := by
  intro l
  induction l with
  | nil => intro cache; rfl
  | cons j rest ih =>
    intro cache
    unfold probsAux
    split_ifs with h <;> simp [ih]

theorem probsAux_zero_of_none (S : Solver) (P : ℕ → ℕ → ℚ) (cur : ℕ) :
    ∀ (l : List ℕ) (cache : Cache) (pr : ℕ × ℚ),
      pr ∈ (probsAux S P cur cache l).1 → S.distances cur pr.1 = none → pr.2 = 0 := by
  intro l
  induction l with
  | nil => intro cache pr h; cases h
  | cons j rest ih =>
    intro cache pr hmem hnone
    unfold probsAux at hmem
    split_ifs at hmem with h
    · rcases List.mem_cons.mp hmem with rfl | hmem2
      · exact absurd hnone h
      · exact ih _ pr hmem2 hnone
    · rcases List.mem_cons.mp hmem with rfl | hmem2
      · rfl
      · exact ih _ pr hmem2 hnone

theorem probsAux_total_eq_sum (S : Solver) (P : ℕ → ℕ → ℚ) (cur : ℕ) :
    ∀ (l : List ℕ) (cache : Cache),
      (probsAux S P cur cache l).2.1 = ((probsAux S P cur cache l).1.map Prod.snd).sum := by
  intro l
  induction l with
  | nil => intro cache; rfl
  | cons j rest ih =>
    intro cache
    unfold probsAux
    split_ifs with h <;> simp [ih]

theorem probsAux_all_none (S : Solver) (P : ℕ → ℕ → ℚ) (cur : ℕ) :
    ∀ (l : List ℕ) (cache : Cache), (∀ j ∈ l, S.distances cur j = none) →
      probsAux S P cur cache l = (l.map (fun j => (j, 0)), 0, cache) := by
  intro l
  induction l with
  | nil => intro cache _; rfl
  | cons j rest ih =>
    intro cache hall
    unfold probsAux
    rw [if_neg (by simpa using hall j (List.mem_cons_self j rest))]
    simp [ih cache (fun x hx => hall x (List.mem_cons_of_mem j hx))]

theorem probsAux_nonneg (S : Solver) (P : ℕ → ℕ → ℚ) (cur : ℕ)
    (hP : ∀ x y, 0 ≤ P x y) (hV : ∀ x y, 0 ≤ S.visibility x y) :
    ∀ (l : List ℕ) (cache : Cache), (∀ e ∈ cache, 0 ≤ e.2) →
      (∀ pr ∈ (probsAux S P cur cache l).1, 0 ≤ pr.2)
        ∧ ∀ e ∈ (probsAux S P cur cache l).2.2, 0 ≤ e.2 := by
  intro l
  induction l with
  | nil => intro cache hc; exact ⟨fun pr h => absurd h (List.not_mem_nil pr), hc⟩
  | cons j rest ih =>
    intro cache hc
    unfold probsAux
    split_ifs with h
    · have hp := probability_nonneg S P cache cur j hP hV hc
      have ht := ih _ hp.2
      refine ⟨?_, ht.2⟩
      intro pr hmem
      rcases List.mem_cons.mp hmem with rfl | hmem2
      · exact hp.1
      · exact ht.1 pr hmem2
    · have ht := ih cache hc
      refine ⟨?_, ht.2⟩
      intro pr hmem
      rcases List.mem_cons.mp hmem with rfl | hmem2
      · exact le_refl 0
      · exact ht.1 pr hmem2

theorem rouletteWalk_mem :
    ∀ (l : List (ℕ × ℚ)) (cum r : ℚ) (j : ℕ),
      rouletteWalk l cum r = some j → j ∈ l.map Prod.fst := by
  intro l
  induction l with
  | nil => intro cum r j h; cases h
  | cons pr rest ih =>
    intro cum r j h
    rcases pr with ⟨j0, p0⟩
    unfold rouletteWalk at h
    split_ifs at h with hc
    · cases h
      exact List.mem_cons_self _ _
    · exact List.mem_cons_of_mem _ (ih _ r j h)

theorem rouletteWalk_pos :
    ∀ (l : List (ℕ × ℚ)) (cum r : ℚ) (j : ℕ), cum < r →
      rouletteWalk l cum r = some j → ∃ p, (j, p) ∈ l ∧ 0 < p := by
  intro l
  induction l with
  | nil => intro cum r j _ h; cases h
  | cons pr rest ih =>
    intro cum r j hcum h
    rcases pr with ⟨j0, p0⟩
    unfold rouletteWalk at h
    split_ifs at h with hc
    · cases h
      exact ⟨p0, List.mem_cons_self _ _, by linarith⟩
    · rcases ih (cum + p0) r j (by linarith [not_le.mp hc]) h with ⟨p, hp, hpos⟩
      exact ⟨p, List.mem_cons_of_mem _ hp, hpos⟩

theorem rouletteWalk_some_of_le :
    ∀ (l : List (ℕ × ℚ)) (cum r : ℚ), l ≠ [] →
      r ≤ cum + (l.map Prod.snd).sum → ∃ j, rouletteWalk l cum r = some j := by
  intro l
  induction l with
  | nil => intro cum r h; exact absurd rfl h
  | cons pr rest ih =>
    intro cum r _ hle
    rcases pr with ⟨j0, p0⟩
    unfold rouletteWalk
    split_ifs with hc
    · exact ⟨j0, rfl⟩
    · rcases List.eq_nil_or_concat rest with rfl | _
      · exfalso
        simp at hle
        exact hc (by linarith)
      · refine ih (cum + p0) r (by rintro rfl; simp at hle; exact hc (by linarith)) ?_
        simp at hle ⊢
        linarith

/-- C5 (amended): a returned node is always an unvisited node; whenever
the random draw is strictly positive it is moreover reachable; the
no-candidate result is returned exactly when the computed total
desirability is zero; and if no unvisited node is reachable the total is
zero, so no candidate is returned.  (The positivity hypotheses on the
matrices, cache and draw reflect the program's own invariants:
`random.random()` ranges over [0,1), and pheromones, visibilities and
cached scores are nonnegative throughout a run.) -/
theorem C5_choose_next (S : Solver) (P : ℕ → ℕ → ℚ) (cache : Cache) (cur : ℕ)
    (unvisited : List ℕ) (o : Oracle) (ri : ℕ)
    (hne : unvisited ≠ [])
    (hP : ∀ x y, 0 ≤ P x y) (hV : ∀ x y, 0 ≤ S.visibility x y)
    (hc : ∀ e ∈ cache, 0 ≤ e.2)
    (hu0 : 0 ≤ o.randreal ri) (hu1 : o.randreal ri < 1) :
    (∀ j, (chooseNext S P cache cur unvisited o ri).1 = some j → j ∈ unvisited)
    ∧ ((chooseNext S P cache cur unvisited o ri).1 = none
        ↔ (probsAux S P cur cache unvisited).2.1 = 0)
    ∧ ((∀ j ∈ unvisited, S.distances cur j = none)
        → (chooseNext S P cache cur unvisited o ri).1 = none)
    ∧ (0 < o.randreal ri →
        ∀ j, (chooseNext S P cache cur unvisited o ri).1 = some j →
          S.distances cur j ≠ none) := by
  have hnn := probsAux_nonneg S P cur hP hV unvisited cache hc
  have hsum := probsAux_total_eq_sum S P cur unvisited cache
  have hfst := probsAux_fst S P cur unvisited cache
  have hchoose : chooseNext S P cache cur unvisited o ri
      = if (probsAux S P cur cache unvisited).2.1 = 0
          then (none, (probsAux S P cur cache unvisited).2.2, ri)
          else (match rouletteWalk (probsAux S P cur cache unvisited).1 0
                  (o.randreal ri * (probsAux S P cur cache unvisited).2.1) with
                | some j => (some j, (probsAux S P cur cache unvisited).2.2, ri + 1)
                | none => (unvisited.getLast?, (probsAux S P cur cache unvisited).2.2, ri + 1)) := by
    simp only [chooseNext]
    rw [if_neg hne]
  by_cases htz : (probsAux S P cur cache unvisited).2.1 = 0
  · have hres : (chooseNext S P cache cur unvisited o ri).1 = none := by
      rw [hchoose, if_pos htz]
    refine ⟨fun j h => ?_, ?_, fun _ => hres, fun _ j h => ?_⟩
    · rw [hres] at h; cases h
    · rw [hres]; exact iff_of_true rfl htz
    · rw [hres] at h; cases h
  · have h0 : (0 : ℚ) ≤ (probsAux S P cur cache unvisited).2.1 := by
      rw [hsum]
      exact List.sum_nonneg (by
        intro x hx
        rcases List.mem_map.mp hx with ⟨pr, hpr, rfl⟩
        exact hnn.1 pr hpr)
    have htpos : 0 < (probsAux S P cur cache unvisited).2.1 := by
      rcases lt_or_eq_of_le h0 with h | h
      · exact h
      · exact absurd h.symm htz
    have hpairs_ne : (probsAux S P cur cache unvisited).1 ≠ [] := by
      intro hnil
      rw [hnil] at hfst
      exact hne hfst.symm
    have hrle : o.randreal ri * (probsAux S P cur cache unvisited).2.1
        ≤ 0 + ((probsAux S P cur cache unvisited).1.map Prod.snd).sum := by
      rw [zero_add, ← hsum]
      have h1 : o.randreal ri * (probsAux S P cur cache unvisited).2.1
          ≤ 1 * (probsAux S P cur cache unvisited).2.1 :=
        mul_le_mul_of_nonneg_right (le_of_lt hu1) (le_of_lt htpos)
      linarith
    rcases rouletteWalk_some_of_le _ 0 _ hpairs_ne hrle with ⟨j0, hw⟩
    have hres : (chooseNext S P cache cur unvisited o ri).1 = some j0 := by
      rw [hchoose, if_neg htz, hw]
    refine ⟨fun j h => ?_, ?_, fun hall => ?_, fun hu j h => ?_⟩
    · rw [hres] at h
      cases h
      have := rouletteWalk_mem _ 0 _ j0 hw
      rw [hfst] at this
      exact this
    · rw [hres]
      exact iff_of_false (by simp) htz
    · exfalso
      apply htz
      rw [probsAux_all_none S P cur unvisited cache hall]
    · rw [hres] at h
      cases h
      rcases rouletteWalk_pos _ 0 _ j0 (mul_pos hu htpos) hw with ⟨p, hp, hppos⟩
      intro hnone
      have hz : p = 0 := probsAux_zero_of_none S P cur unvisited cache (j0, p) hp hnone
      exact ne_of_gt hppos hz

/-- Witness for `C5_choose_next`: `lineSolver3`, current node 2,
unvisited nodes 0 and 1, draw 1/2; only node 1 is reachable and it is the
node returned. -/
theorem C5_choose_next_witness :
    ((∀ j, (chooseNext lineSolver3 (fun _ _ => 1 / 10) [] 2 [0, 1] halfOracle 0).1 = some j
        → j ∈ [0, 1])
      ∧ ((chooseNext lineSolver3 (fun _ _ => 1 / 10) [] 2 [0, 1] halfOracle 0).1 = none
          ↔ (probsAux lineSolver3 (fun _ _ => 1 / 10) 2 [] [0, 1]).2.1 = 0)
      ∧ ((∀ j ∈ [0, 1], lineSolver3.distances 2 j = none)
          → (chooseNext lineSolver3 (fun _ _ => 1 / 10) [] 2 [0, 1] halfOracle 0).1 = none)
      ∧ (0 < halfOracle.randreal 0 →
          ∀ j, (chooseNext lineSolver3 (fun _ _ => 1 / 10) [] 2 [0, 1] halfOracle 0).1 = some j
            → lineSolver3.distances 2 j ≠ none)) :=
  C5_choose_next lineSolver3 (fun _ _ => 1 / 10) [] 2 [0, 1] halfOracle 0
    (by decide) (fun _ _ => by norm_num)
    (by
      intro x y
      unfold lineSolver3 visibilityOf buildDistances
      simp only [List.foldl, msetO, List.indexOf]
      split_ifs <;> norm_num)
    (fun e he => absurd he (List.not_mem_nil e))
    (by norm_num [halfOracle]) (by norm_num [halfOracle])

/-! ### The pheromone update formula (C6) -/

theorem pairList_mem (n : ℕ) (pr : ℕ × ℕ) :
    pr ∈ pairList n ↔ pr.1 < pr.2 ∧ pr.2 < n := by
  unfold pairList
  rw [List.mem_flatten]
  constructor
  · rintro ⟨l, hl, hpr⟩
    rcases List.mem_map.mp hl with ⟨i, hi, rfl⟩
    rcases List.mem_map.mp hpr with ⟨j, hj, rfl⟩
    rw [List.mem_range'_1] at hj
    rw [List.mem_range] at hi
    exact ⟨by omega, by omega⟩
  · rintro ⟨h1, h2⟩
    refine ⟨(List.range' (pr.1 + 1) (n - (pr.1 + 1))).map (fun j => (pr.1, j)),
      List.mem_map.mpr ⟨pr.1, List.mem_range.mpr (by omega), rfl⟩, ?_⟩
    exact List.mem_map.mpr ⟨pr.2, List.mem_range'_1.mpr (by omega), rfl⟩

theorem pairList_nodup (n : ℕ) : (pairList n).Nodup := by
  unfold pairList
  rw [List.nodup_flatten]
  constructor
  · intro l hl
    rcases List.mem_map.mp hl with ⟨i, _, rfl⟩
    exact (List.nodup_range' _ _).map (fun a b h => by cases h; rfl)
  · rw [List.pairwise_map]
    refine List.Pairwise.imp ?_ (List.pairwise_lt_range n)
    intro i i' hii pr hpr hpr2
    rcases List.mem_map.mp hpr with ⟨j, _, rfl⟩
    rcases List.mem_map.mp hpr2 with ⟨j2, _, he⟩
    cases he
    omega

theorem evapStep_eval (k : ℚ) (P : ℕ → ℕ → ℚ) (hP : ∀ u v, P u v = P v u)
    (a b x y : ℕ) :
    evapStep k P (a, b) x y
      = if (x = a ∧ y = b) ∨ (x = b ∧ y = a) then P x y * k else P x y := by
  simp only [evapStep, msetQ, and_self, if_true]
  by_cases hba : x = b ∧ y = a
  · rw [if_pos hba, if_pos (Or.inr hba)]
    obtain ⟨h1, h2⟩ := hba
    rw [h1, h2, hP]
  · rw [if_neg hba]
    by_cases hab : x = a ∧ y = b
    · rw [if_pos hab, if_pos (Or.inl hab)]
      obtain ⟨h1, h2⟩ := hab
      rw [h1, h2]
    · rw [if_neg hab, if_neg (by tauto)]

theorem depositStep_eval (d : ℚ) (P : ℕ → ℕ → ℚ) (hP : ∀ u v, P u v = P v u)
    (a b x y : ℕ) :
    depositStep d P (a, b) x y
      = if (x = a ∧ y = b) ∨ (x = b ∧ y = a) then P x y + d else P x y := by
  simp only [depositStep, msetQ, and_self, if_true]
  by_cases hba : x = b ∧ y = a
  · rw [if_pos hba, if_pos (Or.inr hba)]
    obtain ⟨h1, h2⟩ := hba
    rw [h1, h2, hP]
  · rw [if_neg hba]
    by_cases hab : x = a ∧ y = b
    · rw [if_pos hab, if_pos (Or.inl hab)]
      obtain ⟨h1, h2⟩ := hab
      rw [h1, h2]
    · rw [if_neg hab, if_neg (by tauto)]

theorem foldl_evapStep_eq (k : ℚ) :
    ∀ (l : List (ℕ × ℕ)) (P : ℕ → ℕ → ℚ), (∀ u v, P u v = P v u) →
      (∀ pr ∈ l, pr.1 < pr.2) → l.Nodup → ∀ x y,
        (l.foldl (evapStep k) P) x y
          = if (x, y) ∈ l ∨ (y, x) ∈ l then P x y * k else P x y := by
  intro l
  induction l with
  | nil =>
    intro P hP _ _ x y
    simp
  | cons pr rest ih =>
    intro P hP hlt hnd x y
    rcases pr with ⟨a, b⟩
    have hab : a < b := hlt (a, b) (List.mem_cons_self _ _)
    have hP2 : ∀ u v, evapStep k P (a, b) u v = evapStep k P (a, b) v u :=
      fun u v => evapStep_symm k P (a, b) hP u v
    rw [List.foldl_cons,
      ih (evapStep k P (a, b)) hP2
        (fun q hq => hlt q (List.mem_cons_of_mem _ hq)) (List.Nodup.of_cons hnd) x y,
      evapStep_eval k P hP a b x y]
    have hno1 : (a, b) ∉ rest := by
      intro hmem
      exact (List.nodup_cons.mp hnd).1 hmem
    have hno2 : (b, a) ∉ rest := by
      intro hmem
      have := hlt (b, a) (List.mem_cons_of_mem _ hmem)
      omega
    by_cases hhead : (x = a ∧ y = b) ∨ (x = b ∧ y = a)
    · rw [if_pos hhead]
      have hrest : ¬ ((x, y) ∈ rest ∨ (y, x) ∈ rest) := by
        rcases hhead with ⟨rfl, rfl⟩ | ⟨rfl, rfl⟩
        · rintro (h | h)
          · exact hno1 h
          · exact hno2 h
        · rintro (h | h)
          · exact hno2 h
          · exact hno1 h
      rw [if_neg hrest, if_pos]
      rcases hhead with ⟨rfl, rfl⟩ | ⟨rfl, rfl⟩
      · exact Or.inl (List.mem_cons_self _ _)
      · exact Or.inr (List.mem_cons_self _ _)
    · rw [if_neg hhead]
      by_cases hr : (x, y) ∈ rest ∨ (y, x) ∈ rest
      · rw [if_pos hr, if_pos]
        rcases hr with h | h
        · exact Or.inl (List.mem_cons_of_mem _ h)
        · exact Or.inr (List.mem_cons_of_mem _ h)
      · rw [if_neg hr, if_neg]
        rintro (h | h)
        · rcases List.mem_cons.mp h with he | hm
          · injection he with h1e h2e
            exact hhead (Or.inl ⟨h1e, h2e⟩)
          · exact hr (Or.inl hm)
        · rcases List.mem_cons.mp h with he | hm
          · injection he with h1e h2e
            exact hhead (Or.inr ⟨h2e, h1e⟩)
          · exact hr (Or.inr hm)

theorem foldl_depositStep_eq (d : ℚ) :
    ∀ (l : List (ℕ × ℕ)) (P : ℕ → ℕ → ℚ), (∀ u v, P u v = P v u) → ∀ x y,
      (l.foldl (depositStep d) P) x y
        = P x y + ((l.filter
            (fun pr => (pr.1 = x ∧ pr.2 = y) ∨ (pr.1 = y ∧ pr.2 = x))).length : ℚ) * d := by
  intro l
  induction l with
  | nil =>
    intro P hP x y
    simp
  | cons pr rest ih =>
    intro P hP x y
    rcases pr with ⟨a, b⟩
    rw [List.foldl_cons,
      ih (depositStep d P (a, b)) (fun u v => depositStep_symm d P (a, b) hP u v) x y,
      depositStep_eval d P hP a b x y, List.filter_cons]
    by_cases hhead : (x = a ∧ y = b) ∨ (x = b ∧ y = a)
    · rw [if_pos hhead,
        if_pos (decide_eq_true
          (show (a = x ∧ b = y) ∨ (a = y ∧ b = x) by tauto))]
      simp only [List.length_cons]
      push_cast
      ring
    · rw [if_neg hhead,
        if_neg (by
          simp only [decide_eq_true_eq]
          show ¬ ((a = x ∧ b = y) ∨ (a = y ∧ b = x))
          tauto)]

theorem depositAll_eq (m : Option ℚ) :
    ∀ (l : List (List ℕ × Option ℚ)) (P : ℕ → ℕ → ℚ), (∀ u v, P u v = P v u) →
      ∀ x y, x ≠ y →
        (l.foldl (fun Q pc =>
          (consecPairs pc.1).foldl
            (depositStep (if pc.2 = m then oinv pc.2 * 2 else oinv pc.2)) Q) P) x y
          = P x y + (l.map (fun pc =>
              (countEdge pc.1 x y : ℚ)
                * (if pc.2 = m then oinv pc.2 * 2 else oinv pc.2))).sum := by
  intro l
  induction l with
  | nil =>
    intro P hP x y _
    simp
  | cons pc rest ih =>
    intro P hP x y hxy
    rw [List.foldl_cons,
      ih _ (foldl_depositStep_symm _ _ P hP) x y hxy,
      foldl_depositStep_eq _ (consecPairs pc.1) P hP x y]
    simp only [List.map_cons, List.sum_cons, countEdge]
    ring

/-- C6: one pheromone update first multiplies every off-diagonal in-range
entry by `1 - evaporation_rate` (symmetrically), then adds, for each
closed path with cost `C`, a deposit of `1/C` — doubled exactly when `C`
equals the round minimum — once per traversal of the unordered edge
`{i, j}`, accumulating over all paths. -/
theorem C6_update_formula (S : Solver) (P : ℕ → ℕ → ℚ)
    (paths : List (List ℕ)) (costs : List (Option ℚ))
    (hP : ∀ u v, P u v = P v u) (i j : ℕ) (hij : i ≠ j)
    (hi : i < S.num_nodes) (hj : j < S.num_nodes) :
    (updatePheromones S P paths costs).1 i j
      = P i j * (1 - S.evaporation_rate)
        + ((paths.zip costs).map (fun pc =>
            (countEdge pc.1 i j : ℚ)
              * (if pc.2 = minCostList costs then oinv pc.2 * 2
                 else oinv pc.2))).sum := by
  simp only [updatePheromones]
  rw [depositAll_eq (minCostList costs) (paths.zip costs) _
      (foldl_evapStep_symm _ (pairList S.num_nodes) P hP) i j hij,
    foldl_evapStep_eq _ (pairList S.num_nodes) P hP
      (fun pr hpr => ((pairList_mem S.num_nodes pr).mp hpr).1)
      (pairList_nodup S.num_nodes) i j]
  rw [if_pos]
  rcases Nat.lt_or_ge i j with h | h
  · exact Or.inl ((pairList_mem S.num_nodes (i, j)).mpr ⟨h, hj⟩)
  · exact Or.inr ((pairList_mem S.num_nodes (j, i)).mpr ⟨by omega, hi⟩)

/-- Witness for `C6_update_formula`: the all-ones matrix, one square tour
of cost 4 over `demoSolver4`, edge (0, 1). -/
theorem C6_update_formula_witness :
    (updatePheromones demoSolver4 (fun _ _ => 1) [[0, 1, 2, 3, 0]] [some 4]).1 0 1
      = 1 * (1 - demoSolver4.evaporation_rate)
        + (([[0, 1, 2, 3, 0]].zip [some 4]).map (fun pc =>
            (countEdge pc.1 0 1 : ℚ)
              * (if pc.2 = minCostList [some 4] then oinv pc.2 * 2
                 else oinv pc.2))).sum :=
  C6_update_formula demoSolver4 (fun _ _ => 1) [[0, 1, 2, 3, 0]] [some 4]
    (fun _ _ => rfl) 0 1 (by decide) (by decide) (by decide)

/-! ### Edge-free graphs are reported infeasible (C2, amended) -/

theorem chooseNext_no_edges (S : Solver) (hD : ∀ i j, S.distances i j = none)
    (P : ℕ → ℕ → ℚ) (cache : Cache) (cur : ℕ) (unvisited : List ℕ)
    (o : Oracle) (ri : ℕ) :
    chooseNext S P cache cur unvisited o ri = (none, cache, ri) := by
  by_cases hu : unvisited = []
  · simp [chooseNext, hu]
  · simp only [chooseNext]
    rw [if_neg hu, probsAux_all_none S P cur unvisited cache (fun j _ => hD cur j)]
    simp

theorem antLoop_no_edges (S : Solver) (hD : ∀ i j, S.distances i j = none)
    (P : ℕ → ℕ → ℚ) (o : Oracle) (fuel cur : ℕ) (path unvisited : List ℕ)
    (cache : Cache) (ri : ℕ) :
    antLoop S P o fuel cur path unvisited cache ri = (path, unvisited, cache, ri) := by
  cases fuel with
  | zero => rfl
  | succ n =>
    by_cases hu : unvisited = []
    · simp [antLoop, hu]
    · simp only [antLoop]
      rw [if_neg hu, chooseNext_no_edges S hD]

theorem antOnce_no_edges (S : Solver) (hD : ∀ i j, S.distances i j = none)
    (P : ℕ → ℕ → ℚ) (o : Oracle) (acc : AntsAcc) :
    antOnce S P o acc = { acc with rn := acc.rn + 1 } := by
  simp only [antOnce, antLoop_no_edges S hD]
  rw [if_neg (by simp [hD])]

theorem antsRun_no_edges (S : Solver) (hD : ∀ i j, S.distances i j = none)
    (P : ℕ → ℕ → ℚ) (o : Oracle) :
    ∀ (k : ℕ) (acc : AntsAcc), antsRun S P o k acc = { acc with rn := acc.rn + k } := by
  intro k
  induction k with
  | zero => intro acc; rfl
  | succ n ih =>
    intro acc
    show antsRun S P o n (antOnce S P o acc) = _
    rw [antOnce_no_edges S hD, ih]
    congr 1
    dsimp only
    omega

theorem iterStep_no_edges_best (S : Solver) (hD : ∀ i j, S.distances i j = none)
    (o : Oracle) (st : AcoState) :
    (iterStep S o st).1.best_path = st.best_path
      ∧ (iterStep S o st).1.best_cost = st.best_cost := by
  simp only [iterStep, antsRun_no_edges S hD]
  split_ifs <;> exact ⟨rfl, rfl⟩

theorem solveIters_no_edges_best (S : Solver) (hD : ∀ i j, S.distances i j = none)
    (o : Oracle) : ∀ k : ℕ,
    (solveIters S o k).best_path = none ∧ (solveIters S o k).best_cost = none := by
  intro k
  induction k with
  | zero => exact ⟨rfl, rfl⟩
  | succ n ih =>
    have h := iterStep_no_edges_best S hD o (solveIters S o n)
    exact ⟨h.1.trans ih.1, h.2.trans ih.2⟩

/-- C2 (amended): for every graph with at least one node and no edges,
and every configuration the constructor accepts, `solve` returns — for
every random stream — a result with absent solution and cost and the
infeasibility message, and does not raise. -/
theorem C2_no_edges_infeasible (nodes : List String) (na ni : ℤ) (a b er ip : ℚ)
    (S : Solver) (hne : nodes ≠ [])
    (hmk : mkSolver nodes [] na ni a b er ip = .ok S) (o : Oracle) :
    solve S o = .ok
      { solution := none, cost := none, iterations := ni,
        message := "No solution exists. The graph does not allow a complete tour." } := by
  unfold mkSolver at hmk
  split_ifs at hmk
  case _ =>
    have hni : ¬ (ni ≤ 0) := fun h => (by assumption : ¬ (na ≤ 0 ∨ ni ≤ 0)) (Or.inr h)
    injection hmk with hS
    subst hS
    have hD : ∀ i j, buildDistances nodes [] i j = none := fun i j => rfl
    have hbest := solveIters_no_edges_best
      { node_names := nodes, edges := [], num_ants := na, num_iterations := ni,
        alpha := a, beta := b, evaporation_rate := er, initial_pheromone := ip,
        num_nodes := nodes.length, distances := buildDistances nodes [],
        visibility := visibilityOf nodes [] } hD o ni.toNat
    simp only [solve]
    rw [if_neg hni, if_neg (by
      rintro ⟨hz, _⟩
      exact hne (List.eq_nil_of_length_eq_zero hz))]
    rw [Except.ok.injEq, SolveResult.mk.injEq, hbest.1, hbest.2]
    exact ⟨rfl, rfl, rfl, rfl⟩

/-! ### Two-node graphs always close the degenerate tour (C10) -/

theorem olt_self (q : ℚ) : olt (some q) (some q) = false := by
  simp [olt]

theorem choose_two (S : Solver) (P : ℕ → ℕ → ℚ) (cache : Cache) (o : Oracle)
    (ri : ℕ) (w : ℚ) (hD01 : S.distances 0 1 = some w) :
    chooseNext S P cache 0 [1] o ri
      = if (probability S P cache 0 1).1 = 0
          then (none, (probability S P cache 0 1).2, ri)
          else (some 1, (probability S P cache 0 1).2, ri + 1) := by
  have hpa : probsAux S P 0 cache [1]
      = ([(1, (probability S P cache 0 1).1)],
          (probability S P cache 0 1).1 + 0, (probability S P cache 0 1).2) := by
    simp only [probsAux]
    rw [if_pos (by rw [hD01]; simp)]
  simp only [chooseNext]
  rw [if_neg (by simp), hpa]
  simp only [add_zero]
  by_cases hv : (probability S P cache 0 1).1 = 0
  · rw [if_pos hv, if_pos hv]
  · rw [if_neg hv, if_neg hv]
    rcases hw2 : rouletteWalk [(1, (probability S P cache 0 1).1)] 0
        (o.randreal ri * (probability S P cache 0 1).1) with _ | j
    · simp [hw2]
    · have hmem := rouletteWalk_mem _ _ _ _ hw2
      simp only [List.map_cons, List.map_nil, List.mem_singleton] at hmem
      subst hmem
      simp [hw2]

theorem antLoop_two (S : Solver) (P : ℕ → ℕ → ℚ) (o : Oracle) (cache : Cache)
    (ri : ℕ) (w : ℚ) (hD01 : S.distances 0 1 = some w) :
    antLoop S P o 1 0 [0] [1] cache ri
      = if (probability S P cache 0 1).1 = 0
          then ([0], [1], (probability S P cache 0 1).2, ri)
          else ([0, 1], [], (probability S P cache 0 1).2, ri + 1) := by
  simp only [antLoop]
  rw [if_neg (by simp), choose_two S P cache o ri w hD01]
  by_cases hv : (probability S P cache 0 1).1 = 0
  · rw [if_pos hv, if_pos hv]
  · rw [if_neg hv, if_neg hv]
    rfl

theorem pathCost_two (S : Solver) (w : ℚ)
    (hD01 : S.distances 0 1 = some w) (hD10 : S.distances 1 0 = some w) :
    pathCostD S.distances [0, 1, 0] = some (w + (w + 0)) := by
  simp only [pathCostD, pathCostBy, hD01, hD10, oadd]

/-- One ant on the two-node graph preserves the established best tour
(every closed tour has the same cost) and the cache/cost invariants. -/
theorem antOnce_two_preserve (S : Solver) (P : ℕ → ℕ → ℚ) (o : Oracle)
    (acc : AntsAcc) (w : ℚ)
    (hn2 : S.num_nodes = 2)
    (hD01 : S.distances 0 1 = some w) (hD10 : S.distances 1 0 = some w)
    (hP : ∀ x y, 0 ≤ P x y) (hV : ∀ x y, 0 ≤ S.visibility x y)
    (hrn : ∀ n, o.randnat n = 0)
    (hbp : acc.best_path = some [0, 1, 0]) (hbc : acc.best_cost = some (w + (w + 0)))
    (hc : ∀ e ∈ acc.cache, 0 ≤ e.2)
    (hcost : ∀ c ∈ acc.costs, c = some (w + (w + 0))) :
    (antOnce S P o acc).best_path = some [0, 1, 0]
      ∧ (antOnce S P o acc).best_cost = some (w + (w + 0))
      ∧ (∀ e ∈ (antOnce S P o acc).cache, 0 ≤ e.2)
      ∧ (∀ c ∈ (antOnce S P o acc).costs, c = some (w + (w + 0))) := by
  have hprob := probability_nonneg S P acc.cache 0 1 hP hV hc
  have hst : o.randnat acc.rn % S.num_nodes = 0 := by rw [hrn, hn2]
  have hunv : (List.range S.num_nodes).filter
      (fun j => j ≠ o.randnat acc.rn % S.num_nodes) = [1] := by
    simp only [hrn, hn2]
    rfl
  simp only [antOnce]
  rw [hunv, hst]
  rw [show ([1] : List ℕ).length = 1 from rfl,
    antLoop_two S P o acc.cache acc.ri w hD01]
  by_cases hv : (probability S P acc.cache 0 1).1 = 0
  · rw [if_pos hv]
    rw [if_neg (by simp)]
    exact ⟨hbp, hbc, hprob.2, hcost⟩
  · rw [if_neg hv]
    rw [if_pos (by
      refine ⟨rfl, ?_⟩
      show S.distances 1 0 ≠ none
      rw [hD10]
      simp)]
    simp only []
    rw [show (([0, 1] : List ℕ) ++ [(([0, 1] : List ℕ)).headD 0]) = [0, 1, 0] from rfl]
    rw [pathCost_two S w hD01 hD10, updateBest, hbp, hbc, if_neg (by rw [olt_self]; simp)]
    refine ⟨rfl, rfl, hprob.2, ?_⟩
    intro c hcmem
    rcases List.mem_append.mp hcmem with h1 | h2
    · exact hcost c h1
    · rw [List.mem_singleton.mp h2]

/-- The first ant on the two-node graph (fresh cache, constant positive
pheromone) records the tour 0,1,0 as the best. -/
theorem antOnce_two_first (S : Solver) (P : ℕ → ℕ → ℚ) (o : Oracle)
    (acc : AntsAcc) (w : ℚ)
    (hn2 : S.num_nodes = 2)
    (hD01 : S.distances 0 1 = some w) (hD10 : S.distances 1 0 = some w)
    (hP : ∀ x y, 0 ≤ P x y) (hV : ∀ x y, 0 ≤ S.visibility x y)
    (hP01 : 0 < P 0 1) (hV01 : 0 < S.visibility 0 1)
    (hrn : ∀ n, o.randnat n = 0)
    (hbp : acc.best_path = none) (hbc : acc.best_cost = none)
    (hcache : acc.cache = []) (hcost : acc.costs = []) :
    (antOnce S P o acc).best_path = some [0, 1, 0]
      ∧ (antOnce S P o acc).best_cost = some (w + (w + 0))
      ∧ (∀ e ∈ (antOnce S P o acc).cache, 0 ≤ e.2)
      ∧ (∀ c ∈ (antOnce S P o acc).costs, c = some (w + (w + 0))) := by
  have hvpos : 0 < (probability S P acc.cache 0 1).1 := by
    rw [hcache]
    show 0 < (probability S P [] 0 1).1
    simp only [probability, cacheLookup]
    exact mul_pos (fpow_pos _ _ hP01) (fpow_pos _ _ hV01)
  have hprob := probability_nonneg S P acc.cache 0 1 hP hV
    (by rw [hcache]; exact fun e he => absurd he (List.not_mem_nil e))
  have hst : o.randnat acc.rn % S.num_nodes = 0 := by rw [hrn, hn2]
  have hunv : (List.range S.num_nodes).filter
      (fun j => j ≠ o.randnat acc.rn % S.num_nodes) = [1] := by
    simp only [hrn, hn2]
    rfl
  simp only [antOnce]
  rw [hunv, hst]
  rw [show ([1] : List ℕ).length = 1 from rfl,
    antLoop_two S P o acc.cache acc.ri w hD01]
  rw [if_neg (ne_of_gt hvpos)]
  rw [if_pos (by
    refine ⟨rfl, ?_⟩
    show S.distances 1 0 ≠ none
    rw [hD10]
    simp)]
  simp only []
  rw [show (([0, 1] : List ℕ) ++ [(([0, 1] : List ℕ)).headD 0]) = [0, 1, 0] from rfl]
  rw [pathCost_two S w hD01 hD10, updateBest, hbp, hbc, if_pos (by simp [olt])]
  refine ⟨rfl, rfl, hprob.2, ?_⟩
  intro c hcmem
  rw [hcost] at hcmem
  rw [List.mem_singleton.mp hcmem]

theorem antsRun_two_preserve (S : Solver) (P : ℕ → ℕ → ℚ) (o : Oracle) (w : ℚ)
    (hn2 : S.num_nodes = 2)
    (hD01 : S.distances 0 1 = some w) (hD10 : S.distances 1 0 = some w)
    (hP : ∀ x y, 0 ≤ P x y) (hV : ∀ x y, 0 ≤ S.visibility x y)
    (hrn : ∀ n, o.randnat n = 0) :
    ∀ (k : ℕ) (acc : AntsAcc),
      acc.best_path = some [0, 1, 0] → acc.best_cost = some (w + (w + 0)) →
      (∀ e ∈ acc.cache, 0 ≤ e.2) → (∀ c ∈ acc.costs, c = some (w + (w + 0))) →
      (antsRun S P o k acc).best_path = some [0, 1, 0]
        ∧ (antsRun S P o k acc).best_cost = some (w + (w + 0))
        ∧ (∀ e ∈ (antsRun S P o k acc).cache, 0 ≤ e.2)
        ∧ (∀ c ∈ (antsRun S P o k acc).costs, c = some (w + (w + 0))) := by
  intro k
  induction k with
  | zero => intro acc h1 h2 h3 h4; exact ⟨h1, h2, h3, h4⟩
  | succ n ih =>
    intro acc h1 h2 h3 h4
    have h := antOnce_two_preserve S P o acc w hn2 hD01 hD10 hP hV hrn h1 h2 h3 h4
    exact ih (antOnce S P o acc) h.1 h.2.1 h.2.2.1 h.2.2.2

theorem evapStep_nonneg (k : ℚ) (P : ℕ → ℕ → ℚ) (pr : ℕ × ℕ)
    (hP : ∀ x y, 0 ≤ P x y) (hk : 0 ≤ k) (x y : ℕ) :
    0 ≤ evapStep k P pr x y := by
  simp only [evapStep, msetQ]
  split_ifs
  · exact mul_nonneg (hP _ _) hk
  · exact hP _ _
  · exact mul_nonneg (hP _ _) hk
  · exact hP _ _

theorem depositStep_nonneg (d : ℚ) (P : ℕ → ℕ → ℚ) (pr : ℕ × ℕ)
    (hP : ∀ x y, 0 ≤ P x y) (hd : 0 ≤ d) (x y : ℕ) :
    0 ≤ depositStep d P pr x y := by
  simp only [depositStep, msetQ]
  split_ifs
  · exact add_nonneg (hP _ _) hd
  · exact hP _ _
  · exact add_nonneg (hP _ _) hd
  · exact hP _ _

theorem foldl_evapStep_nonneg (k : ℚ) (hk : 0 ≤ k) :
    ∀ (l : List (ℕ × ℕ)) (P : ℕ → ℕ → ℚ), (∀ x y, 0 ≤ P x y) →
      ∀ x y, 0 ≤ (l.foldl (evapStep k) P) x y := by
  intro l
  induction l with
  | nil => intro P hP x y; exact hP x y
  | cons pr rest ih =>
    intro P hP x y
    exact ih _ (evapStep_nonneg k P pr hP hk) x y

theorem foldl_depositStep_nonneg (d : ℚ) (hd : 0 ≤ d) :
    ∀ (l : List (ℕ × ℕ)) (P : ℕ → ℕ → ℚ), (∀ x y, 0 ≤ P x y) →
      ∀ x y, 0 ≤ (l.foldl (depositStep d) P) x y := by
  intro l
  induction l with
  | nil => intro P hP x y; exact hP x y
  | cons pr rest ih =>
    intro P hP x y
    exact ih _ (depositStep_nonneg d P pr hP hd) x y

theorem depositAll_nonneg (m : Option ℚ) :
    ∀ (l : List (List ℕ × Option ℚ)) (Q : ℕ → ℕ → ℚ), (∀ x y, 0 ≤ Q x y) →
      (∀ pc ∈ l, 0 ≤ oinv pc.2) → ∀ x y,
        0 ≤ (l.foldl (fun Q pc =>
          (consecPairs pc.1).foldl
            (depositStep (if pc.2 = m then oinv pc.2 * 2 else oinv pc.2)) Q) Q) x y := by
  intro l
  induction l with
  | nil => intro Q hQ _ x y; exact hQ x y
  | cons pc rest ih =>
    intro Q hQ hd x y
    rw [List.foldl_cons]
    refine ih _ ?_ (fun q hq => hd q (List.mem_cons_of_mem _ hq)) x y
    refine foldl_depositStep_nonneg _ ?_ (consecPairs pc.1) Q hQ
    have h0 := hd pc (List.mem_cons_self _ _)
    split_ifs
    · have : (0 : ℚ) ≤ oinv pc.2 * 2 := by linarith
      exact this
    · exact h0

theorem updatePheromones_nonneg (S : Solver) (P : ℕ → ℕ → ℚ)
    (paths : List (List ℕ)) (costs : List (Option ℚ))
    (hP : ∀ x y, 0 ≤ P x y) (hk : 0 ≤ 1 - S.evaporation_rate)
    (hd : ∀ c ∈ costs, 0 ≤ oinv c) (x y : ℕ) :
    0 ≤ (updatePheromones S P paths costs).1 x y := by
  simp only [updatePheromones]
  refine depositAll_nonneg (minCostList costs) (paths.zip costs) _
    (foldl_evapStep_nonneg _ hk (pairList S.num_nodes) P hP) ?_ x y
  intro pc hpc
  rcases pc with ⟨p0, c0⟩
  exact hd c0 (List.of_mem_zip hpc).2

theorem resetLoop_nonneg (S : Solver) (o : Oracle) (hip : 0 ≤ S.initial_pheromone) :
    ∀ (l : List (ℕ × ℕ)) (P : ℕ → ℕ → ℚ) (ri : ℕ), (∀ x y, 0 ≤ P x y) →
      ∀ x y,
        0 ≤ (l.foldl (fun acc pr =>
          if o.randreal acc.2 < 1 / 10 then
            (msetQ (msetQ acc.1 pr.1 pr.2 S.initial_pheromone) pr.2 pr.1 S.initial_pheromone,
              acc.2 + 1)
          else (acc.1, acc.2 + 1)) (P, ri)).1 x y := by
  intro l
  induction l with
  | nil => intro P ri hP x y; exact hP x y
  | cons pr rest ih =>
    intro P ri hP x y
    rw [List.foldl_cons]
    split_ifs with h
    · refine ih _ _ ?_ x y
      intro u v
      simp only [msetQ]
      split_ifs <;> first | exact hip | exact hP u v
    · exact ih _ _ hP x y

theorem resetLoop_nonneg_top (S : Solver) (P : ℕ → ℕ → ℚ) (o : Oracle) (ri : ℕ)
    (hip : 0 ≤ S.initial_pheromone) (hP : ∀ x y, 0 ≤ P x y) (x y : ℕ) :
    0 ≤ (resetLoop S P o ri).1 x y := by
  simp only [resetLoop]
  exact resetLoop_nonneg S o hip (pairList S.num_nodes) P ri hP x y

/-- One iteration on the two-node graph keeps the best tour, keeps the
matrices nonnegative, and keeps all cached scores nonnegative. -/
theorem iterStep_two_preserve (S : Solver) (o : Oracle) (st : AcoState) (w : ℚ)
    (hw : 0 < w) (hn2 : S.num_nodes = 2)
    (hD01 : S.distances 0 1 = some w) (hD10 : S.distances 1 0 = some w)
    (hV : ∀ x y, 0 ≤ S.visibility x y)
    (hk : 0 ≤ 1 - S.evaporation_rate) (hip : 0 ≤ S.initial_pheromone)
    (hrn : ∀ n, o.randnat n = 0)
    (hbp : st.best_path = some [0, 1, 0]) (hbc : st.best_cost = some (w + (w + 0)))
    (hP : ∀ x y, 0 ≤ st.pheromones x y) (hc : ∀ e ∈ st.cache, 0 ≤ e.2) :
    (iterStep S o st).1.best_path = some [0, 1, 0]
      ∧ (iterStep S o st).1.best_cost = some (w + (w + 0))
      ∧ (∀ x y, 0 ≤ (iterStep S o st).1.pheromones x y)
      ∧ ∀ e ∈ (iterStep S o st).1.cache, 0 ≤ e.2 := by
  have hacc := antsRun_two_preserve S st.pheromones o w hn2 hD01 hD10 hP hV hrn
    S.num_ants.toNat
    { cache := st.cache, ri := st.ri, rn := st.rn,
      best_path := st.best_path, best_cost := st.best_cost,
      stagnation := st.stagnation, paths := [], costs := [] }
    hbp hbc hc (fun c hcm => absurd hcm (List.not_mem_nil c))
  have hdcost : ∀ c ∈ (antsRun S st.pheromones o S.num_ants.toNat
      { cache := st.cache, ri := st.ri, rn := st.rn,
        best_path := st.best_path, best_cost := st.best_cost,
        stagnation := st.stagnation, paths := [], costs := [] }).costs, 0 ≤ oinv c := by
    intro c hcm
    rw [hacc.2.2.2 c hcm]
    simp only [oinv]
    positivity
  simp only [iterStep]
  split_ifs with hreset hemp hemp
  · refine ⟨hacc.1, hacc.2.1, ?_, ?_⟩
    · intro x y
      exact resetLoop_nonneg_top S _ o _ hip hP x y
    · exact hacc.2.2.1
  · refine ⟨hacc.1, hacc.2.1, ?_, ?_⟩
    · intro x y
      exact resetLoop_nonneg_top S _ o _ hip
        (fun u v => updatePheromones_nonneg S st.pheromones _ _ hP hk hdcost u v) x y
    · intro e he
      exact absurd he (List.not_mem_nil e)
  · exact ⟨hacc.1, hacc.2.1, hP, hacc.2.2.1⟩
  · refine ⟨hacc.1, hacc.2.1, ?_, ?_⟩
    · intro x y
      exact updatePheromones_nonneg S st.pheromones _ _ hP hk hdcost x y
    · intro e he
      exact absurd he (List.not_mem_nil e)

/-- Iteration 0 on the two-node graph establishes the best tour. -/
theorem iterStep_two_first (S : Solver) (o : Oracle) (w : ℚ)
    (hw : 0 < w) (hn2 : S.num_nodes = 2)
    (hD01 : S.distances 0 1 = some w) (hD10 : S.distances 1 0 = some w)
    (hV : ∀ x y, 0 ≤ S.visibility x y) (hV01 : 0 < S.visibility 0 1)
    (hk : 0 ≤ 1 - S.evaporation_rate) (hip : 0 < S.initial_pheromone)
    (hna : 0 < S.num_ants)
    (hrn : ∀ n, o.randnat n = 0) :
    (iterStep S o (initState S)).1.best_path = some [0, 1, 0]
      ∧ (iterStep S o (initState S)).1.best_cost = some (w + (w + 0))
      ∧ (∀ x y, 0 ≤ (iterStep S o (initState S)).1.pheromones x y)
      ∧ ∀ e ∈ (iterStep S o (initState S)).1.cache, 0 ≤ e.2 := by
  have hP : ∀ x y, (0 : ℚ) ≤ (initState S).pheromones x y := fun x y => le_of_lt hip
  have hmpos : 0 < S.num_ants.toNat := by omega
  obtain ⟨m, hm⟩ := Nat.exists_eq_succ_of_ne_zero (Nat.pos_iff_ne_zero.mp hmpos)
  have hfirst := antOnce_two_first S (initState S).pheromones o
    { cache := (initState S).cache, ri := (initState S).ri, rn := (initState S).rn,
      best_path := (initState S).best_path, best_cost := (initState S).best_cost,
      stagnation := (initState S).stagnation, paths := [], costs := [] }
    w hn2 hD01 hD10 hP hV hip hV01 hrn rfl rfl rfl rfl
  have hacc := antsRun_two_preserve S (initState S).pheromones o w hn2 hD01 hD10 hP hV hrn
    m _ hfirst.1 hfirst.2.1 hfirst.2.2.1 hfirst.2.2.2
  have hdcost : ∀ c ∈ (antsRun S (initState S).pheromones o m
      (antOnce S (initState S).pheromones o
        { cache := (initState S).cache, ri := (initState S).ri, rn := (initState S).rn,
          best_path := (initState S).best_path, best_cost := (initState S).best_cost,
          stagnation := (initState S).stagnation, paths := [], costs := [] })).costs,
      0 ≤ oinv c := by
    intro c hcm
    rw [hacc.2.2.2 c hcm]
    simp only [oinv]
    positivity
  simp only [iterStep, hm, antsRun]
  split_ifs with hreset hemp hemp
  · refine ⟨hacc.1, hacc.2.1, ?_, ?_⟩
    · intro x y
      exact resetLoop_nonneg_top S _ o _ (le_of_lt hip) hP x y
    · exact hacc.2.2.1
  · refine ⟨hacc.1, hacc.2.1, ?_, ?_⟩
    · intro x y
      exact resetLoop_nonneg_top S _ o _ (le_of_lt hip)
        (fun u v => updatePheromones_nonneg S _ _ _ hP hk hdcost u v) x y
    · intro e he
      exact absurd he (List.not_mem_nil e)
  · exact ⟨hacc.1, hacc.2.1, hP, hacc.2.2.1⟩
  · refine ⟨hacc.1, hacc.2.1, ?_, ?_⟩
    · intro x y
      exact updatePheromones_nonneg S _ _ _ hP hk hdcost x y
    · intro e he
      exact absurd he (List.not_mem_nil e)

theorem solveIters_two (S : Solver) (o : Oracle) (w : ℚ)
    (hw : 0 < w) (hn2 : S.num_nodes = 2)
    (hD01 : S.distances 0 1 = some w) (hD10 : S.distances 1 0 = some w)
    (hV : ∀ x y, 0 ≤ S.visibility x y) (hV01 : 0 < S.visibility 0 1)
    (hk : 0 ≤ 1 - S.evaporation_rate) (hip : 0 < S.initial_pheromone)
    (hna : 0 < S.num_ants) (hrn : ∀ n, o.randnat n = 0) :
    ∀ k : ℕ,
      (solveIters S o (k + 1)).best_path = some [0, 1, 0]
        ∧ (solveIters S o (k + 1)).best_cost = some (w + (w + 0)) := by
  have hmain : ∀ k : ℕ,
      (solveIters S o (k + 1)).best_path = some [0, 1, 0]
        ∧ (solveIters S o (k + 1)).best_cost = some (w + (w + 0))
        ∧ (∀ x y, 0 ≤ (solveIters S o (k + 1)).pheromones x y)
        ∧ ∀ e ∈ (solveIters S o (k + 1)).cache, 0 ≤ e.2 := by
    intro k
    induction k with
    | zero =>
      exact iterStep_two_first S o w hw hn2 hD01 hD10 hV hV01 hk hip hna hrn
    | succ n ih =>
      exact iterStep_two_preserve S o (solveIters S o (n + 1)) w hw hn2 hD01 hD10 hV
        hk (le_of_lt hip) hrn ih.1 ih.2.1 ih.2.2.1 ih.2.2.2
  exact fun k => ⟨(hmain k).1, (hmain k).2.1⟩

/-- C10: for a graph with exactly two nodes A, B joined by one edge of
positive weight `w`, and any configuration the constructor accepts, there
is a random stream for which `solve` returns the degenerate tour
`[A, B, A]` with cost `2 w` as a successful solution. -/
theorem C10_two_node_tour (w : ℚ) (na ni : ℤ) (a b er ip : ℚ) (S : Solver)
    (hw : 0 < w)
    (hmk : mkSolver ["A", "B"] [("A", "B", w)] na ni a b er ip = .ok S) :
    ∃ o : Oracle, solve S o = .ok
      { solution := some ["A", "B", "A"], cost := some (2 * w), iterations := ni,
        message := "Solution found successfully." } := by
  refine ⟨zeroOracle, ?_⟩
  unfold mkSolver at hmk
  split_ifs at hmk
  case _ =>
    have hni : ¬ (ni ≤ 0) := fun h => (by assumption : ¬ (na ≤ 0 ∨ ni ≤ 0)) (Or.inr h)
    have hna : 0 < na := by
      by_contra hcon
      exact (by assumption : ¬ (na ≤ 0 ∨ ni ≤ 0)) (Or.inl (by omega))
    have hip : (0 : ℚ) < ip := lt_of_not_le (by assumption : ¬ ip ≤ 0)
    have her : 0 ≤ er ∧ er ≤ 1 := by assumption
    injection hmk with hS
    subst hS
    have hD01 : buildDistances ["A", "B"] [("A", "B", w)] 0 1 = some w := rfl
    have hD10 : buildDistances ["A", "B"] [("A", "B", w)] 1 0 = some w := rfl
    have hV : ∀ x y, 0 ≤ visibilityOf ["A", "B"] [("A", "B", w)] x y := by
      intro x y
      unfold visibilityOf buildDistances
      simp only [List.foldl, msetO, List.indexOf]
      split_ifs <;> first | positivity | norm_num
    have hV01 : 0 < visibilityOf ["A", "B"] [("A", "B", w)] 0 1 := by
      show (0 : ℚ) < 1 / w
      positivity
    have hiter := solveIters_two
      { node_names := ["A", "B"], edges := [("A", "B", w)], num_ants := na,
        num_iterations := ni, alpha := a, beta := b, evaporation_rate := er,
        initial_pheromone := ip, num_nodes := (["A", "B"] : List String).length,
        distances := buildDistances ["A", "B"] [("A", "B", w)],
        visibility := visibilityOf ["A", "B"] [("A", "B", w)] }
      zeroOracle w hw rfl hD01 hD10 hV hV01 (by linarith [her.2]) hip hna
      (fun n => rfl)
    have hnit : ∃ m, ni.toNat = m + 1 := by
      refine ⟨ni.toNat - 1, ?_⟩
      omega
    obtain ⟨m, hm⟩ := hnit
    have hfin := hiter m
    rw [← hm] at hfin
    simp only [solve]
    rw [if_neg hni, if_neg (by rintro ⟨hz, _⟩; exact absurd hz (by decide))]
    rw [Except.ok.injEq, SolveResult.mk.injEq, hfin.1, hfin.2]
    refine ⟨rfl, ?_, rfl, rfl⟩
    rw [Option.some.injEq]
    ring

/-- Witness for `C10_two_node_tour` at `w = 1` and the 1-ant,
1-iteration configuration. -/
theorem C10_two_node_tour_witness :
    (0 : ℚ) < 1 ∧ ∃ o : Oracle, solve twoNodeSolver o = .ok
      { solution := some ["A", "B", "A"], cost := some (2 * 1), iterations := 1,
        message := "Solution found successfully." } :=
  ⟨by norm_num,
    C10_two_node_tour 1 1 1 1 1 0 (1 / 10) twoNodeSolver (by norm_num) twoNodeSolver_mk⟩

/-! ### Soundness of returned solutions (C1) -/

theorem chooseNext_mem (S : Solver) (P : ℕ → ℕ → ℚ) (cache : Cache) (cur : ℕ)
    (unvisited : List ℕ) (o : Oracle) (ri : ℕ) (j : ℕ)
    (h : (chooseNext S P cache cur unvisited o ri).1 = some j) : j ∈ unvisited := by
  by_cases hne : unvisited = []
  · rw [hne] at h ⊢
    simp [chooseNext] at h
  · have hchoose : chooseNext S P cache cur unvisited o ri
        = if (probsAux S P cur cache unvisited).2.1 = 0
            then (none, (probsAux S P cur cache unvisited).2.2, ri)
            else (match rouletteWalk (probsAux S P cur cache unvisited).1 0
                    (o.randreal ri * (probsAux S P cur cache unvisited).2.1) with
                  | some j0 => (some j0, (probsAux S P cur cache unvisited).2.2, ri + 1)
                  | none => (unvisited.getLast?, (probsAux S P cur cache unvisited).2.2, ri + 1)) := by
      simp only [chooseNext]
      rw [if_neg hne]
    rw [hchoose] at h
    by_cases htz : (probsAux S P cur cache unvisited).2.1 = 0
    · rw [if_pos htz] at h
      exact absurd h (by simp)
    · rw [if_neg htz] at h
      rcases hw : rouletteWalk (probsAux S P cur cache unvisited).1 0
          (o.randreal ri * (probsAux S P cur cache unvisited).2.1) with _ | j0
      · rw [hw] at h
        exact List.mem_of_getLast?_eq_some h
      · rw [hw] at h
        have hj0 : j0 = j := by
          have hh : some j0 = some j := h
          exact Option.some.inj hh
        subst hj0
        have hmem := rouletteWalk_mem _ 0 _ j0 hw
        rw [probsAux_fst] at hmem
        exact hmem

/-- The construction loop only appends, and it moves nodes from
`unvisited` to the path: the final path plus the final unvisited list is
a permutation of the initial path plus the initial unvisited list. -/
theorem antLoop_spec (S : Solver) (P : ℕ → ℕ → ℚ) (o : Oracle) :
    ∀ (fuel cur : ℕ) (path unvisited : List ℕ) (cache : Cache) (ri : ℕ),
      (∃ ext, (antLoop S P o fuel cur path unvisited cache ri).1 = path ++ ext)
        ∧ ((antLoop S P o fuel cur path unvisited cache ri).1
            ++ (antLoop S P o fuel cur path unvisited cache ri).2.1).Perm
              (path ++ unvisited) := by
  intro fuel
  induction fuel with
  | zero =>
    intro cur path unvisited cache ri
    exact ⟨⟨[], by simp [antLoop]⟩, by simp [antLoop]⟩
  | succ n ih =>
    intro cur path unvisited cache ri
    simp only [antLoop]
    by_cases hu : unvisited = []
    · rw [if_pos hu]
      exact ⟨⟨[], by simp⟩, by simp⟩
    · rw [if_neg hu]
      rcases hch : chooseNext S P cache cur unvisited o ri with ⟨res, cache1, ri1⟩
      rcases res with _ | j
      · exact ⟨⟨[], by simp⟩, by simp⟩
      · have hjmem : j ∈ unvisited :=
          chooseNext_mem S P cache cur unvisited o ri j (by rw [hch])
        obtain ⟨⟨ext, hext⟩, hperm⟩ := ih j (path ++ [j]) (unvisited.erase j) cache1 ri1
        refine ⟨⟨[j] ++ ext, ?_⟩, ?_⟩
        · rw [hext, List.append_assoc]
        · refine hperm.trans ?_
          rw [List.append_assoc]
          exact List.Perm.append_left path (List.perm_cons_erase hjmem).symm

/-- Splitting off one known element of a duplicate-free list. -/
theorem cons_filter_ne_perm :
    ∀ (l : List ℕ) (a : ℕ), a ∈ l → l.Nodup →
      (a :: l.filter (fun x => x ≠ a)).Perm l := by
  intro l
  induction l with
  | nil => intro a h _; cases h
  | cons b t ih =>
    intro a ha hnd
    rcases List.mem_cons.mp ha with rfl | hat
    · have hnotin : a ∉ t := (List.nodup_cons.mp hnd).1
      rw [List.filter_cons, if_neg (by simp)]
      rw [List.filter_eq_self.mpr (fun x hx => by
        simp only [decide_eq_true_eq]
        rintro rfl
        exact hnotin hx)]
    · have hba : ¬ (b = a) := fun he => (List.nodup_cons.mp hnd).1 (he ▸ hat)
      rw [List.filter_cons, if_pos (by simpa using hba)]
      refine List.Perm.trans (List.Perm.swap b a _) ?_
      exact List.Perm.cons b (ih a hat (List.nodup_cons.mp hnd).2)

theorem olt_ne_none (c b : Option ℚ) (h : olt c b = true) : c ≠ none := by
  cases c
  · simp [olt] at h
  · simp

/-- One ant preserves the best-tour soundness invariant. -/
theorem antOnce_goodBest (S : Solver) (P : ℕ → ℕ → ℚ) (o : Oracle) (acc : AntsAcc)
    (hn : 1 ≤ S.num_nodes)
    (hgb : GoodBest S acc.best_path acc.best_cost) :
    GoodBest S (antOnce S P o acc).best_path (antOnce S P o acc).best_cost := by
  have hstartlt : o.randnat acc.rn % S.num_nodes < S.num_nodes :=
    Nat.mod_lt _ (by omega)
  obtain ⟨⟨ext, hext⟩, hperm⟩ := antLoop_spec S P o
    ((List.range S.num_nodes).filter
      (fun j => j ≠ o.randnat acc.rn % S.num_nodes)).length
    (o.randnat acc.rn % S.num_nodes)
    [o.randnat acc.rn % S.num_nodes]
    ((List.range S.num_nodes).filter (fun j => j ≠ o.randnat acc.rn % S.num_nodes))
    acc.cache acc.ri
  simp only [antOnce]
  split_ifs with hclose
  · obtain ⟨hempty, _⟩ := hclose
    rw [hempty, List.append_nil] at hperm
    have hpr : ((o.randnat acc.rn % S.num_nodes)
        :: (List.range S.num_nodes).filter
            (fun j => j ≠ o.randnat acc.rn % S.num_nodes)).Perm
          (List.range S.num_nodes) :=
      cons_filter_ne_perm (List.range S.num_nodes) _
        (List.mem_range.mpr hstartlt) (List.nodup_range _)
    have hq := hperm.trans hpr
    have htne : (antLoop S P o
        ((List.range S.num_nodes).filter
          (fun j => j ≠ o.randnat acc.rn % S.num_nodes)).length
        (o.randnat acc.rn % S.num_nodes)
        [o.randnat acc.rn % S.num_nodes]
        ((List.range S.num_nodes).filter (fun j => j ≠ o.randnat acc.rn % S.num_nodes))
        acc.cache acc.ri).1 ≠ [] := by
      rw [hext]
      simp
    simp only [updateBest]
    split_ifs with hlt
    · exact ⟨⟨_, htne, rfl, hq⟩, rfl, olt_ne_none _ _ hlt⟩
    · exact hgb
  · exact hgb

theorem antsRun_goodBest (S : Solver) (P : ℕ → ℕ → ℚ) (o : Oracle)
    (hn : 1 ≤ S.num_nodes) :
    ∀ (k : ℕ) (acc : AntsAcc), GoodBest S acc.best_path acc.best_cost →
      GoodBest S (antsRun S P o k acc).best_path (antsRun S P o k acc).best_cost := by
  intro k
  induction k with
  | zero => intro acc h; exact h
  | succ n ih =>
    intro acc h
    exact ih (antOnce S P o acc) (antOnce_goodBest S P o acc hn h)

theorem iterStep_best_fields (S : Solver) (o : Oracle) (st : AcoState) :
    (iterStep S o st).1.best_path
        = (antsRun S st.pheromones o S.num_ants.toNat
            { cache := st.cache, ri := st.ri, rn := st.rn,
              best_path := st.best_path, best_cost := st.best_cost,
              stagnation := st.stagnation, paths := [], costs := [] }).best_path
      ∧ (iterStep S o st).1.best_cost
        = (antsRun S st.pheromones o S.num_ants.toNat
            { cache := st.cache, ri := st.ri, rn := st.rn,
              best_path := st.best_path, best_cost := st.best_cost,
              stagnation := st.stagnation, paths := [], costs := [] }).best_cost := by
  simp only [iterStep]
  split_ifs <;> exact ⟨rfl, rfl⟩

theorem solveIters_goodBest (S : Solver) (o : Oracle) (hn : 1 ≤ S.num_nodes) :
    ∀ k : ℕ, GoodBest S (solveIters S o k).best_path (solveIters S o k).best_cost := by
  intro k
  induction k with
  | zero => exact rfl
  | succ n ih =>
    have hf := iterStep_best_fields S o (solveIters S o n)
    rw [show solveIters S o (n + 1) = (iterStep S o (solveIters S o n)).1 from rfl,
      hf.1, hf.2]
    exact antsRun_goodBest S _ o hn _ _ ih

theorem map_getD_range (l : List String) :
    (List.range l.length).map (fun i => l.getD i "") = l := by
  refine List.ext_getElem (by simp) ?_
  intro i h1 h2
  rw [List.getElem_map, List.getElem_range, List.getD_eq_getElem l "" h2]

/-- Under distinct node names, index equality is name equality. -/
theorem indexOf_eq_iff (nodes : List String) (hnd : nodes.Nodup) (i : ℕ)
    (hi : i < nodes.length) (s : String) :
    nodes.indexOf s = i ↔ s = nodes.getD i "" := by
  constructor
  · intro h
    subst h
    have hlt : nodes.indexOf s < nodes.length := hi
    rw [List.getD_eq_getElem nodes "" hi]
    exact (List.getElem_indexOf hlt).symm
  · intro h
    rw [List.getD_eq_getElem nodes "" hi] at h
    subst h
    exact List.indexOf_getElem hnd i hi

/-- The distance matrix agrees with the last-write-wins weight the input
edge list assigns to the corresponding pair of node names. -/
theorem buildDistances_eq_lookup (nodes : List String)
    (edges : List (String × String × ℚ)) (hnd : nodes.Nodup) (i j : ℕ)
    (hi : i < nodes.length) (hj : j < nodes.length) :
    buildDistances nodes edges i j
      = lookupEdgeWeight edges (nodes.getD i "") (nodes.getD j "") := by
  unfold buildDistances lookupEdgeWeight
  suffices h : ∀ (es : List (String × String × ℚ)) (D0 : ℕ → ℕ → Option ℚ)
      (a0 : Option ℚ), D0 i j = a0 →
      (es.foldl (fun D e =>
        msetO (msetO D (nodes.indexOf e.1) (nodes.indexOf e.2.1) (some e.2.2))
          (nodes.indexOf e.2.1) (nodes.indexOf e.1) (some e.2.2)) D0) i j
        = es.foldl (fun acc e =>
            if (e.1 = nodes.getD i "" ∧ e.2.1 = nodes.getD j "")
                ∨ (e.1 = nodes.getD j "" ∧ e.2.1 = nodes.getD i "")
              then some e.2.2 else acc) a0 by
    exact h edges _ none rfl
  intro es
  induction es with
  | nil => intro D0 a0 h; exact h
  | cons e rest ih =>
    intro D0 a0 h
    rw [List.foldl_cons, List.foldl_cons]
    refine ih _ _ ?_
    simp only [msetO]
    by_cases hA : i = nodes.indexOf e.2.1 ∧ j = nodes.indexOf e.1
    · rw [if_pos hA, if_pos (Or.inr
        ⟨(indexOf_eq_iff nodes hnd j hj e.1).mp hA.2.symm,
          (indexOf_eq_iff nodes hnd i hi e.2.1).mp hA.1.symm⟩)]
    · rw [if_neg hA]
      by_cases hB : i = nodes.indexOf e.1 ∧ j = nodes.indexOf e.2.1
      · rw [if_pos hB, if_pos (Or.inl
          ⟨(indexOf_eq_iff nodes hnd i hi e.1).mp hB.1.symm,
            (indexOf_eq_iff nodes hnd j hj e.2.1).mp hB.2.symm⟩)]
      · rw [if_neg hB, if_neg ?_, h]
        rintro (⟨h1, h2⟩ | ⟨h1, h2⟩)
        · exact hB ⟨((indexOf_eq_iff nodes hnd i hi e.1).mpr h1).symm,
            ((indexOf_eq_iff nodes hnd j hj e.2.1).mpr h2).symm⟩
        · exact hA ⟨((indexOf_eq_iff nodes hnd i hi e.2.1).mpr h2).symm,
            ((indexOf_eq_iff nodes hnd j hj e.1).mpr h1).symm⟩

/-- The recorded matrix cost of an in-range path equals the cost
recomputed from the edge list over the corresponding node names. -/
theorem pathCost_bridge (nodes : List String) (edges : List (String × String × ℚ))
    (hnd : nodes.Nodup) :
    ∀ (p : List ℕ), (∀ x ∈ p, x < nodes.length) →
      pathCostBy (buildDistances nodes edges) p
        = pathCostBy (lookupEdgeWeight edges) (p.map (fun i => nodes.getD i "")) := by
  intro p
  induction p with
  | nil => intro _; rfl
  | cons a t ih =>
    intro hmem
    cases t with
    | nil => rfl
    | cons b rest =>
      simp only [List.map_cons, pathCostBy]
      rw [buildDistances_eq_lookup nodes edges hnd a b
          (hmem a (List.mem_cons_self _ _))
          (hmem b (List.mem_cons_of_mem _ (List.mem_cons_self _ _)))]
      have ht := ih (fun x hx => hmem x (List.mem_cons_of_mem _ hx))
      simp only [List.map_cons, pathCostBy] at ht
      rw [ht]

/-- C1: whenever `solve` returns a non-absent solution, the returned
name sequence starts and ends with the same node, visits — between the
endpoints — every node of the graph exactly once, and the reported cost
is finite and equals the cost recomputed independently from the input
edge list. -/
theorem C1_solution_sound (nodes : List String) (edges : List (String × String × ℚ))
    (na ni : ℤ) (a b er ip : ℚ) (S : Solver) (o : Oracle) (r : SolveResult)
    (ns : List String)
    (hnd : nodes.Nodup)
    (hmk : mkSolver nodes edges na ni a b er ip = .ok S)
    (hs : solve S o = .ok r)
    (hsol : r.solution = some ns) :
    ns.head? = ns.getLast? ∧ ns.dropLast.Perm nodes
      ∧ r.cost = pathCostSpec edges ns ∧ r.cost ≠ none := by
  unfold mkSolver at hmk
  split_ifs at hmk
  case _ =>
    have hna : 0 < na := by
      by_contra hcon
      exact (by assumption : ¬ (na ≤ 0 ∨ ni ≤ 0)) (Or.inl (by omega))
    injection hmk with hS
    subst hS
    unfold solve at hs
    have hkey : r.solution
          = ((solveIters
              { node_names := nodes, edges := edges, num_ants := na,
                num_iterations := ni, alpha := a, beta := b,
                evaporation_rate := er, initial_pheromone := ip,
                num_nodes := nodes.length, distances := buildDistances nodes edges,
                visibility := visibilityOf nodes edges } o ni.toNat).best_path.map
              (fun p => p.map (fun i => nodes.getD i "")))
        ∧ r.cost = (solveIters
              { node_names := nodes, edges := edges, num_ants := na,
                num_iterations := ni, alpha := a, beta := b,
                evaporation_rate := er, initial_pheromone := ip,
                num_nodes := nodes.length, distances := buildDistances nodes edges,
                visibility := visibilityOf nodes edges } o ni.toNat).best_cost
        ∧ ¬ (nodes.length = 0 ∧ 0 < na) := by
      split_ifs at hs with h1 h2
      injection hs with hr
      subst hr
      exact ⟨rfl, rfl, h2⟩
    obtain ⟨hsolu, hcostu, hzero⟩ := hkey
    rw [hsolu] at hsol
    rcases Option.map_eq_some'.mp hsol with ⟨p, hbp, hns⟩
    have hn1 : 1 ≤ nodes.length := by
      rcases Nat.eq_zero_or_pos nodes.length with hz | hpos
      · exact absurd ⟨hz, by simpa using hna⟩ hzero
      · exact hpos
    have hgb := solveIters_goodBest
      { node_names := nodes, edges := edges, num_ants := na, num_iterations := ni,
        alpha := a, beta := b, evaporation_rate := er, initial_pheromone := ip,
        num_nodes := nodes.length, distances := buildDistances nodes edges,
        visibility := visibilityOf nodes edges }
      o hn1 ni.toNat
    rw [hbp] at hgb
    obtain ⟨⟨q, hqne, hpq, hqperm⟩, hcost, hcne⟩ := hgb
    obtain ⟨y, t, rfl⟩ := List.exists_cons_of_ne_nil hqne
    have hheadD : ((y :: t).headD 0) = y := rfl
    rw [hheadD] at hpq
    have hmap : ns = ((y :: t).map (fun i => nodes.getD i ""))
        ++ [nodes.getD y ""] := by
      rw [← hns, hpq]
      simp
    have hmemq : ∀ x ∈ (y :: t) ++ [y], x < nodes.length := by
      intro x hx
      have hxq : x ∈ (y :: t) := by
        rcases List.mem_append.mp hx with h1 | h1
        · exact h1
        · rw [List.mem_singleton.mp h1]
          exact List.mem_cons_self _ _
      have := hqperm.mem_iff.mp hxq
      exact List.mem_range.mp this
    refine ⟨?_, ?_, ?_, ?_⟩
    · rw [hmap, List.getLast?_concat]
      simp only [List.map_cons, List.cons_append, List.head?_cons]
    · rw [hmap, List.dropLast_concat]
      refine (hqperm.map (fun i => nodes.getD i "")).trans ?_
      rw [map_getD_range nodes]
    · rw [hcostu, hcost, hpq]
      show pathCostBy _ _ = _
      rw [pathCost_bridge nodes edges hnd ((y :: t) ++ [y]) hmemq]
      rw [← hns, hpq]
      congr 1
    · rw [hcostu]
      exact hcne

/-- Witness for `C1_solution_sound`: the triangle run returns the tour
A,B,C,A with cost 3, which satisfies all four conclusions. -/
theorem C1_solution_sound_witness :
    (["A", "B", "C"] : List String).Nodup
      ∧ solve triangleSolver zeroOracle = .ok
          { solution := some ["A", "B", "C", "A"], cost := some 3, iterations := 1,
            message := "Solution found successfully." }
      ∧ ((["A", "B", "C", "A"] : List String).head?
            = (["A", "B", "C", "A"] : List String).getLast?
          ∧ (["A", "B", "C", "A"] : List String).dropLast.Perm ["A", "B", "C"]
          ∧ (some 3 : Option ℚ) = pathCostSpec triangleEdges ["A", "B", "C", "A"]
          ∧ (some 3 : Option ℚ) ≠ none) :=
  ⟨by decide, rfl,
    C1_solution_sound ["A", "B", "C"] triangleEdges 1 1 1 1 0 (1 / 10)
      triangleSolver zeroOracle
      { solution := some ["A", "B", "C", "A"], cost := some 3, iterations := 1,
        message := "Solution found successfully." }
      ["A", "B", "C", "A"] (by decide) triangleSolver_mk rfl rfl⟩

/-- Witness for `C2_no_edges_infeasible`: one node, no edges. -/
theorem C2_no_edges_infeasible_witness :
    (["A"] : List String) ≠ []
      ∧ solve oneNodeSolver zeroOracle = .ok
          { solution := none, cost := none, iterations := 1,
            message := "No solution exists. The graph does not allow a complete tour." } :=
  ⟨by decide,
    C2_no_edges_infeasible ["A"] 1 1 1 1 0 (1 / 10) oneNodeSolver (by decide)
      oneNodeSolver_mk zeroOracle⟩

end AcoTsp
